import Mathlib

/-!
A shallow embedding of the per-line log-processing pipeline of
jrockway/json-logs (package `parse`): schema detection and field
extraction (`ReadLine`/`guessSchema`), regex/jq filtering
(`FilterScheme.Run`), grep-style context windowing (`context.Print`),
stateful output formatting (`OutputSchema.Emit`) and the orchestrating
per-line loop (`ReadLog`).

Modelling conventions:
* Go `map[string]interface{}` becomes an association list `Fields`;
  iteration order is only observable where the Go code sorts explicitly.
* JSON numbers are modelled as integers (`Int`); no claim under study
  depends on fractional or floating-point behaviour.
* `time.Time` is modelled as `Option Int` (nanoseconds since the epoch),
  `none` being Go's zero time.
* External capabilities (the JSON decoder, the regexp engine, the jq
  interpreter, the RFC3339 parser) are modelled as data supplied by the
  caller, mirroring the spec's treatment of them as injected collaborators.
-/

namespace JsonLogs

/-- Log level from `parse.Level` (an ordered enum, `uint8` in Go). -/
inductive Level where
  | unknown
  | trace
  | debug
  | info
  | warn
  | error
  | panic
  | dpanic
  | fatal
deriving DecidableEq, Repr

/-- A JSON-like value as decoded by `encoding/json` into `interface{}`.
Numbers are modelled as integers (see module conventions). -/
inductive Value where
  | vNull
  | vBool (b : Bool)
  | vNum (n : Int)
  | vStr (s : String)
  | vArr (xs : List Value)
  | vObj (fs : List (String × Value))
deriving Repr

/-- The field mapping of one log line: Go's `map[string]interface{}`. -/
abbrev Fields := List (String × Value)

namespace Fields

/-- Map lookup `v, ok := m[k]`. -/
def get? (fs : Fields) (k : String) : Option Value :=
  match fs with
  | [] => none
  | (k', v) :: rest => if k' == k then some v else get? rest k

/-- Map deletion `delete(m, k)` (removes every binding of `k`). -/
def erase (fs : Fields) (k : String) : Fields :=
  match fs with
  | [] => []
  | (k', v) :: rest => if k' == k then erase rest k else (k', v) :: erase rest k

/-- Map assignment `m[k] = v`: replace in place if present, else append. -/
def insert (fs : Fields) (k : String) (v : Value) : Fields :=
  match fs with
  | [] => [(k, v)]
  | (k', v') :: rest =>
      if k' == k then (k, v) :: rest else (k', v') :: insert rest k v

/-- The keys of the mapping, in list order. -/
def keys (fs : Fields) : List String :=
  match fs with
  | [] => []
  | (k, _) :: rest => k :: keys rest

/-- The number of entries, `len(m)`. -/
def size (fs : Fields) : Nat :=
  match fs with
  | [] => 0
  | _ :: rest => size rest + 1

end Fields

mutual

/-- `json.Marshal` for a `Value` (canonical serialized form used for
value-scope regex matching and for field elision). -/
def jsonSerialize : Value → String
  | .vNull => "null"
  | .vBool true => "true"
  | .vBool false => "false"
  | .vNum n => toString n
  | .vStr s => "\"" ++ s ++ "\""
  | .vArr xs => "[" ++ serializeArr xs ++ "]"
  | .vObj fs => "\x7b" ++ serializeObj fs ++ "\x7d"

/-- Comma-separated serialization of an array body. -/
def serializeArr : List Value → String
  | [] => ""
  | [x] => jsonSerialize x
  | x :: rest => jsonSerialize x ++ "," ++ serializeArr rest

/-- Comma-separated serialization of an object body. -/
def serializeObj : List (String × Value) → String
  | [] => ""
  | [(k, v)] => "\"" ++ k ++ "\":" ++ jsonSerialize v
  | (k, v) :: rest => "\"" ++ k ++ "\":" ++ jsonSerialize v ++ "," ++ serializeObj rest

end

/-- Go's `fmt.Sprintf("%v", x)` on a decoded JSON value (used only by the
repository's own test formatter). -/
def goFmtValue : Value → String
  | .vNull => "<nil>"
  | .vBool true => "true"
  | .vBool false => "false"
  | .vNum n => toString n
  | .vStr s => s
  | v => jsonSerialize v

/-- `time.Time`, `none` being the zero time (`t.IsZero()`); nanoseconds
since the Unix epoch otherwise. -/
abbrev GoTime := Option Int

/-- `time.Unix(sec, nsec)`. -/
def timeUnix (sec nsec : Int) : GoTime := some (sec * 1000000000 + nsec)

/-- The `TimeParser` strategies the package defines.  The Go fields
`TimeFormat`/`LevelFormat` hold function pointers chosen from a fixed set
of named strategies; the tags below name those strategies so that schema
states can be compared. -/
inductive TimeParserTag where
  | strictUnix   -- `StrictUnixTimeParser`
  | rfc3339      -- `DefaultTimeParser`
deriving DecidableEq, Repr

/-- The `LevelParser` strategies the package defines. -/
inductive LevelParserTag where
  | default      -- `DefaultLevelParser`
  | bunyanV0     -- `BunyanV0LevelParser`
  | lager        -- `LagerLevelParser`
deriving DecidableEq, Repr

/-- `time.Parse(time.RFC3339, s)`: an external stdlib capability.  It is
modelled as always failing; no claim under study evaluates an RFC3339
string timestamp, only the identity of the strategy that would parse it. -/
def timeParseRFC3339 (_ : String) : Except String GoTime :=
  .error "interpreting string timestamp as RFC3339"

/-- `strconv.ParseFloat` restricted to the integral strings the model can
represent (no claim under study parses a string into a Unix timestamp). -/
def parseFloatString (s : String) : Option Int := s.toInt?

/-- `float64AsTime` composed with the numeric cases of
`StrictUnixTimeParser`: numbers are seconds since the epoch. -/
def StrictUnixTimeParser : Value → Except String GoTime
  | .vNum n => .ok (timeUnix n 0)
  | .vStr s =>
      match parseFloatString s with
      | some n => .ok (timeUnix n 0)
      | none => .error ("strict unix timestamp parser: cannot parse string " ++ s)
  | _ => .error "invalid time format"

/-- `toInt(m, k)` from `default_parsers.go`: fetch key `k` and floor it if
it is a number. -/
def toIntField (m : List (String × Value)) (k : String) : Option Int :=
  match Fields.get? m k with
  | some (.vNum n) => some n
  | _ => none

/-- `DefaultTimeParser`: numbers are seconds since the epoch, strings are
RFC3339 timestamps, objects are Stackdriver `seconds`/`nanos` pairs. -/
def DefaultTimeParser : Value → Except String GoTime
  | .vNum n => .ok (timeUnix n 0)
  | .vStr s => timeParseRFC3339 s
  | .vObj m =>
      match toIntField m "seconds", toIntField m "nanos" with
      | some sec, some nsec => .ok (timeUnix sec nsec)
      | _, _ => .error "map not in stackdriver format"
  | _ => .error "invalid time format"

/-- `DefaultLevelParser`: common level-name strings; unrecognized strings
map to `unknown` without error; non-strings are an error. -/
def DefaultLevelParser : Value → Except String Level
  | .vStr s =>
      .ok (match s with
        | "trace" | "TRACE" => .trace
        | "debug" | "DEBUG" => .debug
        | "info" | "INFO" => .info
        | "warn" | "WARN" => .warn
        | "error" | "ERROR" => .error
        | "panic" | "PANIC" => .panic
        | "dpanic" | "DPANIC" => .dpanic
        | "fatal" | "FATAL" => .fatal
        | _ => .unknown)
  | _ => .error "invalid type for log level"

/-- `LagerLevelParser`: lager's numeric levels. -/
def LagerLevelParser : Value → Except String Level
  | .vNum 0 => .ok .debug
  | .vNum 1 => .ok .info
  | .vNum 2 => .ok .error
  | .vNum 3 => .ok .fatal
  | .vNum _ => .error "invalid lager log level"
  | _ => .error "invalid lager log level, want float64"

/-- Modelled from the spec: `BunyanV0LevelParser` is referenced by
`guessSchema` but its definition is not among the sources; the spec calls
it a "numeric bunyan scale" level decoder sharing the common contract. -/
def BunyanV0LevelParser : Value → Except String Level
  | .vNum n =>
      .ok (if n ≤ 10 then .trace
        else if n ≤ 20 then .debug
        else if n ≤ 30 then .info
        else if n ≤ 40 then .warn
        else if n ≤ 50 then .error
        else .fatal)
  | _ => .error "invalid bunyan log level"

/-- Dispatch a `TimeParserTag` to its strategy. -/
def interpTime : TimeParserTag → Value → Except String GoTime
  | .strictUnix => StrictUnixTimeParser
  | .rfc3339 => DefaultTimeParser

/-- Dispatch a `LevelParserTag` to its strategy. -/
def interpLevel : LevelParserTag → Value → Except String Level
  | .default => DefaultLevelParser
  | .bunyanV0 => BunyanV0LevelParser
  | .lager => LagerLevelParser

/-- One raw input row together with what `json.Unmarshal` would decode it
to (`none` = decode error).  The JSON decoder is an external capability;
pairing each row with its decode result is the shallow embedding of it. -/
structure Raw where
  text : String := ""
  json : Option Fields := none
deriving Repr

/-- `line`: one log line flowing through the pipeline (`parse.line`). -/
structure Rec where
  time : GoTime := none
  msg : String := ""
  lvl : Level := .unknown
  raw : Raw := {}
  highlight : Bool := false
  fields : Fields := []
  isSeparator : Bool := false
deriving Repr

/-- `InputSchema`: interpretation of incoming log lines. -/
structure InputSchema where
  TimeKey : String := ""
  TimeFormat : Option TimeParserTag := none
  LevelKey : String := ""
  LevelFormat : Option LevelParserTag := none
  MessageKey : String := ""
  NoTimeKey : Bool := false
  NoLevelKey : Bool := false
  NoMessageKey : Bool := false
  Strict : Bool := false
  DeleteKeys : List String := []
  UpgradeKeys : List String := []
deriving DecidableEq, Repr

/-- `v, ok := l.fields["v"].(float64); ok && v == 0` from the bunyan
signature check. -/
def isNumZero : Option Value → Bool
  | some (.vNum 0) => true
  | _ => false

/-- `guessSchema`: guess the schema from the first matching signature if
none has been explicitly configured (mutates the schema in Go; returns the
updated schema here). -/
def guessSchema (s : InputSchema) (l : Rec) : InputSchema :=
  if s.TimeKey ≠ "" ∨ s.LevelKey ≠ "" ∨ s.MessageKey ≠ "" then
    -- Explicitly turn off guessing, as per the docs.
    s
  else if s.NoTimeKey ∨ s.NoLevelKey ∨ s.NoMessageKey then
    s
  else
    let has := fun key => (l.fields.get? key).isSome
    if has "ts" ∧ has "level" ∧ has "msg" then
      -- zap's default production encoder
      { s with TimeKey := "ts", TimeFormat := some .strictUnix,
               LevelKey := "level", LevelFormat := some .default,
               MessageKey := "msg" }
    else if has "timestamp" ∧ has "severity" ∧ has "message" then
      -- stackdriver
      { s with TimeKey := "timestamp", TimeFormat := some .rfc3339,
               LevelKey := "severity", LevelFormat := some .default,
               MessageKey := "message" }
    else if has "time" ∧ has "severity" ∧ has "message" then
      -- another stackdriver format
      { s with TimeKey := "time", TimeFormat := some .rfc3339,
               LevelKey := "severity", LevelFormat := some .default,
               MessageKey := "message" }
    else if (has "time" ∧ has "level" ∧ has "v" ∧ has "msg")
        ∧ isNumZero (l.fields.get? "v") then
      -- bunyan
      { s with TimeKey := "time", TimeFormat := some .rfc3339,
               LevelKey := "level", LevelFormat := some .bunyanV0,
               MessageKey := "msg", DeleteKeys := s.DeleteKeys ++ ["v"] }
    else if has "time" ∧ has "level" ∧ has "msg" then
      -- logrus default json encoder
      { s with TimeKey := "time", TimeFormat := some .rfc3339,
               LevelKey := "level", LevelFormat := some .default,
               MessageKey := "msg" }
    else if l.fields.size = 5 ∧ has "timestamp" ∧ has "level" ∧ has "message"
        ∧ has "data" ∧ has "source" then
      -- lager "pretty"
      { s with TimeKey := "timestamp", TimeFormat := some .rfc3339,
               LevelKey := "level", LevelFormat := some .default,
               MessageKey := "message", UpgradeKeys := s.UpgradeKeys ++ ["data"] }
    else if l.fields.size = 5 ∧ has "timestamp" ∧ has "log_level" ∧ has "message"
        ∧ has "data" ∧ has "source" then
      -- lager non-pretty
      { s with TimeKey := "timestamp", TimeFormat := some .strictUnix,
               LevelKey := "log_level", LevelFormat := some .lager,
               MessageKey := "message", UpgradeKeys := s.UpgradeKeys ++ ["data"] }
    else if has "ts" ∧ has "message" ∧ has "workerId" ∧ has "pipelineName" then
      -- Pachyderm worker logs
      { s with TimeKey := "ts", TimeFormat := some .rfc3339,
               NoLevelKey := true, MessageKey := "message" }
    else
      s

/-- Chain a second error onto an accumulated one (`pushError`). -/
def pushError (acc : Option String) (e : String) : Option String :=
  match acc with
  | none => some e
  | some old => some (old ++ "; " ++ e)

/-- Does the raw text start with `'{'`?  (`l.raw[0] == '{'`) -/
def startsWithBrace (s : String) : Bool :=
  match s.data with
  | [] => false
  | c :: _ => c == '\x7b'

/-- Merge `toMerge`'s members into the field map (`for k, v := range`). -/
def mergeFields (fs : Fields) (toMerge : List (String × Value)) : Fields :=
  match toMerge with
  | [] => fs
  | (k, v) :: rest => mergeFields (fs.insert k v) rest

/-- The upgrade-keys pass of `ReadLine`: for each named key holding an
object, delete the original key first and merge its members; a non-object
value is an error only in strict mode. -/
def applyUpgradeKeys (strict : Bool) (names : List String)
    (fs : Fields) (err : Option String) : Fields × Option String :=
  match names with
  | [] => (fs, err)
  | name :: rest =>
      match fs.get? name with
      | none => applyUpgradeKeys strict rest fs err
      | some (.vObj m) =>
          applyUpgradeKeys strict rest (mergeFields (fs.erase name) m) err
      | some _ =>
          applyUpgradeKeys strict rest fs
            (if strict then
              pushError err ("upgrade key " ++ name ++ ": invalid data type")
            else err)

/-- `InputSchema.ReadLine`: parse one log line.  Returns the (possibly
auto-detected) schema, the parsed line and the chained parse error.  In Go
the schema is mutated through the receiver pointer. -/
def ReadLine (s : InputSchema) (l : Rec) : InputSchema × Rec × Option String :=
  if ¬s.Strict ∧ ((l.raw.text ≠ "" ∧ ¬startsWithBrace l.raw.text) ∨ l.raw.text = "") then
    (s, { l with time := none, msg := l.raw.text }, some "not a JSON object")
  else
    let (l, retErr) :=
      match l.raw.json with
      | some fs => ({ l with fields := fs }, none)
      | none =>
          (if ¬s.Strict then { l with msg := l.raw.text } else l,
           pushError none "unmarshal json")
    let s := guessSchema s l
    -- time
    let (l, retErr) :=
      if ¬s.NoTimeKey then
        match s.TimeFormat, l.fields.get? s.TimeKey with
        | some tf, some rawv =>
            match interpTime tf rawv with
            | .error e =>
                (l, pushError retErr ("parse time in key " ++ s.TimeKey ++ ": " ++ e))
            | .ok t =>
                ({ l with fields := l.fields.erase s.TimeKey, time := t }, retErr)
        | _, _ => (l, pushError retErr ("no time key " ++ s.TimeKey ++ " in incoming log"))
      else (l, retErr)
    -- message
    let (l, retErr) :=
      if ¬s.NoMessageKey then
        match l.fields.get? s.MessageKey with
        | some (.vStr x) =>
            ({ l with msg := x, fields := l.fields.erase s.MessageKey }, retErr)
        | some _ =>
            ({ l with msg := l.raw.text },
             pushError retErr ("message key " ++ s.MessageKey ++ " contains non-string data"))
        | none =>
            (l, pushError retErr ("no message key " ++ s.MessageKey ++ " in incoming log"))
      else (l, retErr)
    -- level
    let (l, retErr) :=
      if ¬s.NoLevelKey then
        match s.LevelFormat, l.fields.get? s.LevelKey with
        | some lf, some lvlv =>
            match interpLevel lf lvlv with
            | .error e => (l, pushError retErr ("level key " ++ s.LevelKey ++ ": " ++ e))
            | .ok parsed =>
                ({ l with lvl := parsed, fields := l.fields.erase s.LevelKey }, retErr)
        | _, _ => (l, pushError retErr ("no level key " ++ s.LevelKey ++ " in incoming log"))
      else (l, retErr)
    -- upgrade keys, then delete keys
    let (fs, retErr) := applyUpgradeKeys s.Strict s.UpgradeKeys l.fields retErr
    let fs := s.DeleteKeys.foldl (fun acc k => acc.erase k) fs
    (s, { l with fields := fs }, retErr)

/-! ## Filter engine (`filter.go`) -/

/-- A compiled regular expression, modelled as the behaviour the engine
(an external capability) exposes to the filter code: `SubexpNames()` and
`FindStringSubmatch` (whose result, when non-empty, lists one submatch per
subexpression name, the whole match first). -/
structure Regexp where
  subexpNames : List String
  findStringSubmatch : String → Option (List String)

/-- One value yielded by a running jq program: either a JSON value or a
raised program error. -/
inductive JQOut where
  | val (v : Value)
  | raised (msg : String)

/-- A compiled jq program, modelled as the lazy sequence of results it
yields for a line's field map and variables (an external capability). -/
abbrev JQCode := Rec → List JQOut

/-- `RegexpScope` bitmask constants. -/
def RegexpScopeMessage : Nat := 1
/-- Keys bit of the scope bitmask. -/
def RegexpScopeKeys : Nat := 2
/-- Values bit of the scope bitmask. -/
def RegexpScopeValues : Nat := 4

/-- `FilterScheme`: how lines are filtered. -/
structure FilterScheme where
  JQ : Option JQCode := none
  MatchRegex : Option Regexp := none
  NoMatchRegex : Option Regexp := none
  Scope : Nat := RegexpScopeMessage

/-- Bit test `scope&bit > 0`. -/
def scopeHas (scope bit : Nat) : Bool := scope.land bit > 0

/-- The capture-group write loop of `applyRegexp`: for each subexpression
name after index 0, write the submatch into the field map (an unnamed
group is written under `$i`). -/
def writeGroups (i : Nat) (names groups : List String) (fs : Fields) : Fields :=
  match names, groups with
  | n :: ns, g :: gs =>
      let fs := if i = 0 then fs
        else fs.insert (if n = "" then "$" ++ toString i else n) (.vStr g)
      writeGroups (i + 1) ns gs fs
  | _, _ => fs

/-- `applyRegexp`: run the regexp against one input string, writing the
capture groups of a match into the line's fields. -/
def applyRegexp (rx : Regexp) (l : Rec) (input : String) : Rec × Bool :=
  match rx.findStringSubmatch input with
  | none => (l, false)
  | some groups =>
      if groups.length = 0 then (l, false)
      else ({ l with fields := writeGroups 0 rx.subexpNames groups l.fields }, true)

/-- The keys-scope loop of `runRegexp`: try each field name until the
first hit. -/
def runRegexpKeys (rx : Regexp) (l : Rec) : List (String × Value) → Rec × Bool
  | [] => (l, false)
  | (k, _) :: rest =>
      let (l', found) := applyRegexp rx l k
      if found then (l', true) else runRegexpKeys rx l rest

/-- The values-scope loop of `runRegexp`: try the canonical serialized
form of each field value until the first hit.  (In the model
serialization is total, so the marshal-error sentinel path of the Go code
is unreachable.) -/
def runRegexpValues (rx : Regexp) (l : Rec) : List (String × Value) → Rec × Bool
  | [] => (l, false)
  | (_, v) :: rest =>
      let (l', found) := applyRegexp rx l (jsonSerialize v)
      if found then (l', true) else runRegexpValues rx l rest

/-- `runRegexp`: run the regexp over every enabled scope, stopping at the
first hit. -/
def runRegexp (rx : Regexp) (l : Rec) (scope : Nat) : Rec × Bool :=
  let step1 :=
    if scopeHas scope RegexpScopeMessage then applyRegexp rx l l.msg
    else (l, false)
  if step1.2 then step1
  else
    let step2 :=
      if scopeHas scope RegexpScopeKeys then runRegexpKeys rx step1.1 step1.1.fields
      else (step1.1, false)
    if step2.2 then step2
    else
      if scopeHas scope RegexpScopeValues then runRegexpValues rx step2.1 step2.1.fields
      else (step2.1, false)

/-- Extract the `__highlight` private key from a jq object result. -/
def extractHighlight (fs : Fields) (hl : Bool) : Fields × Bool :=
  match fs.get? "__highlight" with
  | none => (fs, hl)
  | some raw =>
      (fs.erase "__highlight",
       match raw with
       | .vBool b => b
       | _ => hl)

/-- `runJQ`: run the jq program on the line.  Empty output means the line
is filtered; a single object result replaces the field map (after the
highlight key is extracted); every other shape is an error. -/
def runJQ (jq : Option JQCode) (l : Rec) : Except String (Bool × Rec) :=
  match jq with
  | none => .ok (false, l)
  | some code =>
      match code l with
      | [] => .ok (true, l)
      | r :: rest =>
          match r with
          | .val (.vObj fs) =>
              let (fs, hl) := extractHighlight fs l.highlight
              let l := { l with fields := fs, highlight := hl }
              if rest.isEmpty then .ok (false, l)
              else .error "unexpectedly produced more than 1 output"
          | .val .vNull => .error "unexpected nil result; yield an empty map to delete all fields"
          | .raised m => .error ("error: " ++ m)
          | .val (.vBool _) => .error "unexpected boolean output; did you mean to use select?"
          | .val _ => .error "unexpected result type"

/-- `FilterScheme.Run`: the no-match regex, then the match regex, then the
jq program; the verdict is true when the line should be removed. -/
def FilterScheme.Run (f : FilterScheme) (l : Rec) : Except String (Bool × Rec) :=
  let (l, rxFiltered) :=
    match f.NoMatchRegex with
    | some rx =>
        let (l, found) := runRegexp rx l f.Scope
        (l, found)
    | none => (l, false)
  let (l, rxFiltered) :=
    match f.MatchRegex with
    | some rx =>
        let (l, found) := runRegexp rx l f.Scope
        (l, rxFiltered || !found)
    | none => (l, rxFiltered)
  match runJQ f.JQ l with
  | .error e => .error ("jq: " ++ e)
  | .ok (jqFiltered, l) => .ok (rxFiltered || jqFiltered, l)

/-! ## Context window (`context.go`) -/

/-- `context`: the grep-style context-window state machine. -/
structure Ctx where
  Before : Nat := 0
  After : Nat := 0
  lines : List Rec := []
  printAfter : Nat := 0
  line : Nat := 0
  lastPrint : Nat := 0

/-- The separator record `&line{isSeparator: true}`. -/
def sepRec : Rec := { isSeparator := true }

/-- `context.Print`: admit or suppress one record, returning the records
to display right now.  The gap test is over Go `int`s. -/
def ctxPrint (c : Ctx) (msg : Rec) (selected : Bool) : Ctx × List Rec :=
  let c := { c with line := c.line + 1 }
  if selected then
    let sep : List Rec :=
      if c.lastPrint ≠ 0 ∧ (c.After ≠ 0 ∨ c.Before ≠ 0) ∧
          ((c.line : Int) - c.lines.length - c.lastPrint > 1) then
        [sepRec]
      else []
    ({ c with printAfter := c.After, lastPrint := c.line, lines := [] },
     sep ++ c.lines ++ [msg])
  else if c.printAfter > 0 then
    ({ c with lastPrint := c.line, printAfter := c.printAfter - 1 }, [msg])
  else if c.Before > 0 then
    let ls := c.lines ++ [msg]
    ({ c with lines := if ls.length > c.Before then ls.drop 1 else ls }, [])
  else
    (c, [])

/-- Feed a whole stream of (record, selected) pairs through the context
window, concatenating everything it emits. -/
def processCtx (c : Ctx) : List (Rec × Bool) → Ctx × List Rec
  | [] => (c, [])
  | (r, sel) :: rest =>
      let (c, out) := ctxPrint c r sel
      let (c, outRest) := processCtx c rest
      (c, out ++ outRest)

/-! ## Output state and formatter (`parse.go` `Emit`, `default_formats.go`) -/

/-- `State`: cross-line output state.  `lastFields` maps a field name to
the serialized bytes most recently rendered for it. -/
structure State where
  seenFields : List String := []
  timePadding : Nat := 0
  lastFields : List (String × String) := []
  lastTime : GoTime := none

/-- Look up a remembered serialized value (`old, ok := s.lastFields[k]`). -/
def lastFieldsGet? (m : List (String × String)) (k : String) : Option String :=
  match m with
  | [] => none
  | (k', v) :: rest => if k' == k then some v else lastFieldsGet? rest k

/-- `s.lastFields[k] = value`. -/
def lastFieldsSet (m : List (String × String)) (k v : String) : List (String × String) :=
  match m with
  | [] => [(k, v)]
  | (k', v') :: rest =>
      if k' == k then (k, v) :: rest else (k', v') :: lastFieldsSet rest k v

/-- `delete(s.lastFields, k)` for every key not rendered this iteration. -/
def lastFieldsKeep (m : List (String × String)) (keep : List String) : List (String × String) :=
  match m with
  | [] => []
  | (k, v) :: rest =>
      if keep.contains k then (k, v) :: lastFieldsKeep rest keep
      else lastFieldsKeep rest keep

/-- `OutputFormatter`: the four formatting capabilities.  Each takes and
returns the cross-line `State` and produces the bytes it would write. -/
structure Fmtr where
  formatTime : State → GoTime → State × String
  formatLevel : State → Level → State × String
  formatMessage : State → String → Bool → State × String
  formatField : State → String → Value → State × String

/-- `DefaultOutputFormatter` configuration (color is modelled as disabled,
which makes the Aurora wrappers the identity). -/
structure DefaultOutputFormatter where
  ElideDuplicateFields : Bool := false
  AbsoluteTimeFormat : String := ""

/-- The canonical serialized bytes of a field value in
`DefaultOutputFormatter.FormatField`: strings raw, everything else
JSON-marshalled. -/
def serializeFieldValue (v : Value) : String :=
  match v with
  | .vStr x => x
  | _ => jsonSerialize v

/-- `DefaultOutputFormatter.FormatField`: `key:` then the value, eliding
a value identical to the one last rendered for the same key as the
placeholder glyph. -/
def defaultFormatField (f : DefaultOutputFormatter) (s : State) (k : String)
    (v : Value) : State × String :=
  let value := serializeFieldValue v
  let (s, value) :=
    if f.ElideDuplicateFields then
      match lastFieldsGet? s.lastFields k with
      | some old =>
          if old == value then
            ({ s with lastFields := lastFieldsSet s.lastFields k value }, "↑")
          else
            ({ s with lastFields := lastFieldsSet s.lastFields k value }, value)
      | none => ({ s with lastFields := lastFieldsSet s.lastFields k value }, value)
    else (s, value)
  (s, k ++ ":" ++ value)

/-- `DefaultOutputFormatter.FormatLevel`: a fixed-width label per level. -/
def defaultFormatLevel (_ : DefaultOutputFormatter) (s : State) (lvl : Level) :
    State × String :=
  (s, match lvl with
    | .trace => "TRACE"
    | .debug => "DEBUG"
    | .info => "INFO "
    | .warn => "WARN "
    | .error => "ERROR"
    | .panic => "PANIC"
    | .dpanic => "DPANI"
    | .fatal => "FATAL"
    | .unknown => "UNK  ")

/-- Pad a string on the right to the current time-column width and update
the high-water mark (the common tail of `FormatTime`). -/
def padTime (s : State) (out : String) : State × String :=
  let out := out ++ String.mk (List.replicate (s.timePadding - out.length) ' ')
  if out.length > s.timePadding then ({ s with timePadding := out.length }, out)
  else (s, out)

/-- `DefaultOutputFormatter.FormatTime`: the zero time renders as `???`;
other times render through external wall-clock formatting, abbreviated
here to the decimal nanosecond count (no claim under study renders a
non-zero time through the default formatter). -/
def defaultFormatTime (_ : DefaultOutputFormatter) (s : State) (t : GoTime) :
    State × String :=
  match t with
  | none => padTime s "???"
  | some n => padTime s (toString n)

/-- `DefaultOutputFormatter.FormatMessage` writes the message verbatim. -/
def defaultFormatMessage (_ : DefaultOutputFormatter) (s : State) (msg : String)
    (_ : Bool) : State × String :=
  (s, msg)

/-- Bundle the default formatter. -/
def DefaultOutputFormatter.toFmtr (f : DefaultOutputFormatter) : Fmtr where
  formatTime := defaultFormatTime f
  formatLevel := defaultFormatLevel f
  formatMessage := defaultFormatMessage f
  formatField := defaultFormatField f

/-- `OutputSchema`: output configuration plus the cross-line state. -/
structure OutputSchema where
  PriorityFields : List String := []
  Formatter : Option Fmtr := none
  BeforeContext : Nat := 0
  AfterContext : Nat := 0
  suppressionConfigured : Bool := false
  noTime : Bool := false
  noLevel : Bool := false
  noMessage : Bool := false
  state : State := {}

/-- One pass of the `write` closure of `Emit` over a key list: write each
listed key present in the field map, deleting it as it is written.
Returns the (key, value) writes in order and the remaining fields. -/
def writeList (ks : List String) (fs : Fields) : List (String × Value) × Fields :=
  match ks with
  | [] => ([], fs)
  | k :: rest =>
      match fs.get? k with
      | some v =>
          let (ws, fs') := writeList rest (fs.erase k)
          ((k, v) :: ws, fs')
      | none => writeList rest fs

/-- `sort.Strings` (ascending). -/
def sortStrings (l : List String) : List String :=
  l.insertionSort (fun a b => a ≤ b)

/-- The sorted not-yet-seen keys of `Emit` (`newFields` in the Go code):
whatever survives the priority pass and the seen pass, sorted. -/
def emitNewKeys (priority seen : List String) (fs : Fields) : List String :=
  sortStrings ((writeList seen (writeList priority fs).2).2).keys

/-- The full (key, value) write sequence of `Emit`: the priority pass,
then the seen pass, then the sorted new fields. -/
def emitWrites (priority seen : List String) (fs : Fields) : List (String × Value) :=
  let (ws1, rest1) := writeList priority fs
  let (ws2, rest2) := writeList seen rest1
  let (ws3, _) := writeList (sortStrings rest2.keys) rest2
  ws1 ++ ws2 ++ ws3

/-- Render a list of field writes through the formatter, threading the
state and the space separation of the `write` closure. -/
def renderWrites (F : Fmtr) (s : State) (needSpace : Bool) :
    List (String × Value) → State × String
  | [] => (s, "")
  | (k, v) :: rest =>
      let sp := if needSpace then " " else ""
      let (s, t) := F.formatField s k v
      let (s, tr) := renderWrites F s true rest
      (s, sp ++ t ++ tr)

/-- The level/time/message part of `Emit`: the state after the three
header formatters, the bytes they produced and the need-space flag. -/
def emitHeader (outs : OutputSchema) (F : Fmtr) (l : Rec) : State × String × Bool :=
  let st := outs.state
  let (st, out, needSpace) :=
    if ¬outs.noLevel then
      let (st, t) := F.formatLevel st l.lvl
      (st, t ++ " ", false)
    else (st, "", false)
  let (st, out) :=
    if ¬outs.noTime then
      let (st, t) := F.formatTime st l.time
      (st, out ++ t ++ " ")
    else (st, out)
  if ¬outs.noMessage then
    let (st, t) := F.formatMessage st l.msg l.highlight
    (st, out ++ t, true)
  else (st, out, needSpace)

/-- `OutputSchema.Emit`: format one record.  A separator renders as the
separator literal alone; otherwise level, time, message, then the priority
fields in configured order, the previously seen fields in first-seen
order, and the remaining new fields in sorted order (each appended to the
seen-field list); finally every remembered elision value whose key was not
rendered this iteration is forgotten.  Appends to `buf` and ends the
record with exactly one newline. -/
def Emit (outs : OutputSchema) (l : Rec) (buf : String) : OutputSchema × String :=
  if l.isSeparator then (outs, buf ++ "---\n")
  else
    let F := outs.Formatter.getD (DefaultOutputFormatter.toFmtr {})
    let (st, out, needSpace) := emitHeader outs F l
    let writes := emitWrites outs.PriorityFields st.seenFields l.fields
    let newKeys := emitNewKeys outs.PriorityFields st.seenFields l.fields
    let st := { st with seenFields := st.seenFields ++ newKeys }
    let (st, fieldsOut) := renderWrites F st needSpace writes
    let seenIt := writes.map (·.1)
    let st := { st with lastFields := lastFieldsKeep st.lastFields seenIt }
    ({ outs with state := st }, buf ++ out ++ fieldsOut ++ "\n")

/-! ## Orchestrator (`parse.go` `ReadLog`) -/

/-- `Summary`: monotone counters, updated once per input line. -/
structure Summary where
  Lines : Nat := 0
  Errors : Nat := 0
  Filtered : Nat := 0
deriving DecidableEq, Repr

/-- The mutable state of the `ReadLog` loop: the schema (mutated by
auto-detection), the output schema (cross-line output state and the
lazily configured suppression flags), the context window, the summary,
the bytes written to the sink so far, and the diagnostics passed to
`EmitError` so far. -/
structure LoopSt where
  ins : InputSchema := {}
  outs : OutputSchema := {}
  ctx : Ctx := {}
  sum : Summary := {}
  out : String := ""
  diags : List String := []

/-- The emit loop of `ReadLog`: on the first record ever emitted, copy the
schema's suppression flags onto the output schema; then `Emit` each
record into the per-line buffer. -/
def emitAll (ins : InputSchema) (outs : OutputSchema) (buf : String) :
    List Rec → OutputSchema × String
  | [] => (outs, buf)
  | r :: rest =>
      let outs :=
        if ¬outs.suppressionConfigured then
          { outs with noTime := ins.NoTimeKey, noLevel := ins.NoLevelKey,
                      noMessage := ins.NoMessageKey, suppressionConfigured := true }
        else outs
      let (outs, buf) := Emit outs r buf
      emitAll ins outs buf rest

/-- The flags the per-line closure sets before returning; the deferred
epilogue interprets them. -/
structure LineFlags where
  addError : Bool := false
  writeRawLine : Bool := false
  recoverable : Bool := false

/-- The body of the per-line closure of `ReadLog` (everything before the
deferred epilogue): parse, filter, context admission, emit.  Returns the
updated loop state, the per-line buffer, the flags and the body's return
value.  Writes to the sink are modelled as always succeeding. -/
def processLineBody (filter : FilterScheme) (row : Raw) (st : LoopSt) :
    LoopSt × String × LineFlags × Option String :=
  -- l.reset(); l.raw = s.Bytes()
  let l : Rec := { raw := row }
  -- Parse input.
  let (ins, l, parseErr) := ReadLine st.ins l
  let st := { st with ins := ins }
  -- Show parse errors in strict mode.
  if parseErr.isSome ∧ ins.Strict then
    (st, "", { addError := true, writeRawLine := true, recoverable := true },
     some ("parse: " ++ parseErr.getD ""))
  else
    -- Filter.
    match filter.Run l with
    | .error e =>
        (st, "", { addError := true, writeRawLine := true, recoverable := false },
         some ("filter: " ++ e))
    | .ok (filtered, l) =>
        let st :=
          if filtered then { st with sum := { st.sum with Filtered := st.sum.Filtered + 1 } }
          else st
        if filtered ∧ parseErr.isSome then
          (st, "", { addError := true, writeRawLine := false, recoverable := true },
           some ("parse: " ++ parseErr.getD ""))
        else
          -- Emit any lines that are able to be printed based on the context settings.
          let (ctx, toEmit) := ctxPrint st.ctx l (!filtered)
          let (outs, buf) := emitAll st.ins st.outs "" toEmit
          let st := { st with ctx := ctx, outs := outs }
          if parseErr.isSome then
            (st, buf, { addError := true, writeRawLine := false, recoverable := true },
             some ("parse: " ++ parseErr.getD ""))
          else
            (st, buf, {}, none)

/-- The deferred epilogue of the per-line closure: count the error, flush
the per-line buffer to the sink, write the raw line verbatim if
requested, and swallow recoverable errors (reporting them only in strict
mode). -/
def processLine (filter : FilterScheme) (row : Raw) (st : LoopSt) :
    LoopSt × Option String :=
  let (st, buf, flags, retErr) := processLineBody filter row st
  let st :=
    if flags.addError then { st with sum := { st.sum with Errors := st.sum.Errors + 1 } }
    else st
  let st := { st with out := st.out ++ buf }
  let st :=
    if flags.writeRawLine then { st with out := st.out ++ row.text ++ "\n" }
    else st
  if flags.recoverable then
    let st :=
      if st.ins.Strict then { st with diags := st.diags ++ [retErr.getD ""] }
      else st
    (st, none)
  else
    (st, retErr)

/-- The scan loop of `ReadLog`: one input row at a time, stopping with an
error annotated with the offending line number when the per-line closure
returns one. -/
def readLogLoop (filter : FilterScheme) (st : LoopSt) :
    List Raw → LoopSt × Option String
  | [] => (st, none)
  | row :: rows =>
      let st := { st with sum := { st.sum with Lines := st.sum.Lines + 1 } }
      match processLine filter row st with
      | (st, none) => readLogLoop filter st rows
      | (st, some e) =>
          (st, some ("input line " ++ toString st.sum.Lines ++ ": " ++ e))

/-- The output-schema normalization at the top of `ReadLog`: reset the
output state and substitute the default formatter when none is
configured. -/
def ReadLogInitOuts (outs : OutputSchema) : OutputSchema :=
  { outs with
    state := { lastFields := [] },
    Formatter := some (outs.Formatter.getD (DefaultOutputFormatter.toFmtr {})) }

/-- The per-run `LoopSt` `ReadLog` starts from. -/
def ReadLogInit (ins : InputSchema) (outs : OutputSchema) : LoopSt :=
  { ins := ins, outs := ReadLogInitOuts outs,
    ctx := { Before := outs.BeforeContext, After := outs.AfterContext } }

/-- `ReadLog`: read a stream of rows (already split at newlines — the
scanner is I/O), reformatting them into the sink.  Resets the output
state, substitutes the default formatter when none is configured, and
builds the context window from the configured windows. -/
def ReadLog (rows : List Raw) (ins : InputSchema) (outs : OutputSchema)
    (filter : FilterScheme) : LoopSt × Option String :=
  readLogLoop filter (ReadLogInit ins outs) rows

/-! ## The package's own test formatter (`parse_test.go`), used by the
scenario theorems below exactly as the repository's tests use it. -/

/-- `testFormatter.FormatTime`: the zero time renders as `{TS:∅}`, other
times as `{TS:<unix seconds>}`. -/
def testFormatTime (s : State) (t : GoTime) : State × String :=
  match t with
  | none => (s, "\x7bTS:∅\x7d")
  | some n => (s, "\x7bTS:" ++ toString (n / 1000000000) ++ "\x7d")

/-- `testFormatter.FormatLevel`: single-letter labels, `X` for anything
unrecognized. -/
def testFormatLevel (s : State) (l : Level) : State × String :=
  let lvl := match l with
    | .debug => "D"
    | .info => "I"
    | .warn => "W"
    | _ => "X"
  (s, "\x7bLVL:" ++ lvl ++ "\x7d")

/-- `testFormatter.FormatMessage`: brackets a highlighted message. -/
def testFormatMessage (s : State) (msg : String) (highlight : Bool) : State × String :=
  let msg := if highlight then "[" ++ msg ++ "]" else msg
  (s, "\x7bMSG:" ++ msg ++ "\x7d")

/-- `strings.ToUpper` for the ASCII keys of the tests: upper-case each
rune. -/
def goToUpper (s : String) : String := String.mk (s.data.map Char.toUpper)

/-- `testFormatter.FormatField`: `%v`-formatted value, eliding a repeat of
the previous serialized value as `<same>` (without updating the memory). -/
def testFormatField (s : State) (k : String) (v : Value) : State × String :=
  let value := goFmtValue v
  let (s, value) :=
    match lastFieldsGet? s.lastFields k with
    | some old =>
        if old == value then (s, "<same>")
        else ({ s with lastFields := lastFieldsSet s.lastFields k value }, value)
    | none => ({ s with lastFields := lastFieldsSet s.lastFields k value }, value)
  (s, "\x7bF:" ++ goToUpper k ++ ":" ++ value ++ "\x7d")

/-- The bundled test formatter. -/
def testFmtr : Fmtr where
  formatTime := testFormatTime
  formatLevel := testFormatLevel
  formatMessage := testFormatMessage
  formatField := testFormatField

/-! ## Shared scenario data -/

/-- The `t`/`l`/`m` schema of the package's tests, lax variant (the test
suite's custom time parser is replaced by the package's own
`StrictUnixTimeParser`, which also treats numbers as Unix seconds). -/
def laxSchemaTLM : InputSchema := {
  TimeKey := "t", LevelKey := "l", MessageKey := "m",
  TimeFormat := some .strictUnix, LevelFormat := some .default, Strict := false }

/-- The strict variant of the same schema. -/
def strictSchemaTLM : InputSchema := { laxSchemaTLM with Strict := true }

/-- An output schema using the package's test formatter. -/
def testOuts : OutputSchema := { Formatter := some testFmtr }

/-- A row that is not JSON. -/
def rowNotJson : Raw := { text := "this is not json", json := none }

/-- The test suite's `goodLine`: `{"t":1,"l":"info","m":"hi","a":42}`. -/
def rowGood : Raw := {
  text := "\x7b\"t\":1,\"l\":\"info\",\"m\":\"hi\",\"a\":42\x7d",
  json := some [("t", .vNum 1), ("l", .vStr "info"), ("m", .vStr "hi"), ("a", .vNum 42)] }

/-! ## C3: schema auto-detection -/

/-- `guessSchema` is bypassed when any key is pre-set. -/
theorem guessSchema_bypass_keys (s : InputSchema) (l : Rec)
    (h : s.TimeKey ≠ "" ∨ s.LevelKey ≠ "" ∨ s.MessageKey ≠ "") :
    guessSchema s l = s := by
  unfold guessSchema
  rw [if_pos h]

/-- `guessSchema` is bypassed when any suppression flag is set. -/
theorem guessSchema_bypass_flags (s : InputSchema) (l : Rec)
    (hk : ¬(s.TimeKey ≠ "" ∨ s.LevelKey ≠ "" ∨ s.MessageKey ≠ ""))
    (h : s.NoTimeKey ∨ s.NoLevelKey ∨ s.NoMessageKey) :
    guessSchema s l = s := by
  unfold guessSchema
  rw [if_neg hk, if_pos h]

/-- Whenever `guessSchema` changes the schema, it sets a non-empty time
key, which bypasses all future guessing. -/
theorem guessSchema_fires_sets_timeKey (s : InputSchema) (l : Rec)
    (h : guessSchema s l ≠ s) : (guessSchema s l).TimeKey ≠ "" := by
  by_cases hk : s.TimeKey ≠ "" ∨ s.LevelKey ≠ "" ∨ s.MessageKey ≠ ""
  · exact absurd (guessSchema_bypass_keys s l hk) h
  · by_cases hf : s.NoTimeKey ∨ s.NoLevelKey ∨ s.NoMessageKey
    · exact absurd (guessSchema_bypass_flags s l hk hf) h
    · unfold guessSchema
      rw [if_neg hk, if_neg hf]
      unfold guessSchema at h
      rw [if_neg hk, if_neg hf] at h
      dsimp only at h ⊢
      split_ifs at h ⊢ <;> first
        | exact absurd rfl h
        | simp

/-- A decoded record carrying zap's signature fields. -/
def recZap : Rec :=
  { fields := [("ts", .vNum 1), ("level", .vStr "info"), ("msg", .vStr "hi")] }

/-- A decoded record matching no known signature. -/
def rowFoo : Raw := { text := "\x7b\"foo\":1\x7d", json := some [("foo", .vNum 1)] }

/-- A raw zap row. -/
def rowZap : Raw := {
  text := "\x7b\"ts\":1,\"level\":\"info\",\"msg\":\"hi\"\x7d",
  json := some [("ts", .vNum 1), ("level", .vStr "info"), ("msg", .vStr "hi")] }

/-- C3: schema auto-detection is *not* triggered only by the first decoded
record: with no keys pre-set, a first decoded record matching no known
signature leaves the schema unguessed, and the *second* decoded record
then triggers detection (setting `TimeKey` to `"ts"`). -/
theorem C3_counterexample :
    (ReadLine {} { raw := rowFoo }).1 = ({} : InputSchema) ∧
    (ReadLine (ReadLine {} { raw := rowFoo }).1 { raw := rowZap }).1.TimeKey = "ts" := by
  constructor <;> rfl

/-- C3 (amended): auto-detection is attempted on every decoded record
until it first succeeds; it is fully bypassed whenever any of the
time/level/message keys is pre-set or any of the no-time/no-level/
no-message flags is set, and once it fires the detected keys and parsers
stay fixed for the rest of the run (every later `guessSchema` call leaves
the schema unchanged). -/
theorem C3_guessSchema_once_fired_fixed (s : InputSchema) (l l₂ : Rec) :
    ((s.TimeKey ≠ "" ∨ s.LevelKey ≠ "" ∨ s.MessageKey ≠ "") → guessSchema s l = s) ∧
    ((s.NoTimeKey ∨ s.NoLevelKey ∨ s.NoMessageKey) → guessSchema s l = s) ∧
    (guessSchema s l ≠ s → guessSchema (guessSchema s l) l₂ = guessSchema s l) := by
  refine ⟨fun h => guessSchema_bypass_keys s l h, fun h => ?_, fun h => ?_⟩
  · by_cases hk : s.TimeKey ≠ "" ∨ s.LevelKey ≠ "" ∨ s.MessageKey ≠ ""
    · exact guessSchema_bypass_keys s l hk
    · exact guessSchema_bypass_flags s l hk h
  · exact guessSchema_bypass_keys (guessSchema s l) l₂
      (Or.inl (guessSchema_fires_sets_timeKey s l h))

/-- Witness for C3's amended theorem at concrete inputs: a pre-set key
bypasses guessing, a suppression flag bypasses guessing, and a fired
detection stays fixed on the next record. -/
theorem C3_guessSchema_once_fired_fixed_witness :
    guessSchema { TimeKey := "x" } recZap = { TimeKey := "x" } ∧
    guessSchema { NoTimeKey := true } recZap = { NoTimeKey := true } ∧
    guessSchema (guessSchema {} recZap) { fields := [("time", .vStr "z")] } =
      guessSchema {} recZap :=
  ⟨(C3_guessSchema_once_fired_fixed { TimeKey := "x" } recZap recZap).1
      (Or.inl (by decide)),
   (C3_guessSchema_once_fired_fixed { NoTimeKey := true } recZap recZap).2.1
      (Or.inl (by decide)),
   (C3_guessSchema_once_fired_fixed {} recZap { fields := [("time", .vStr "z")] }).2.2
      (by decide)⟩

/-! ## C7: capture groups are written into the field mapping -/

/-- Lookup after inserting the same key. -/
theorem Fields.get?_insert_self (fs : Fields) (k : String) (v : Value) :
    (fs.insert k v).get? k = some v := by
  induction fs with
  | nil => simp [Fields.insert, Fields.get?]
  | cons kv rest ih =>
      obtain ⟨k', v'⟩ := kv
      by_cases h : k' = k
      · simp [Fields.insert, Fields.get?, h]
      · simp [Fields.insert, Fields.get?, h, ih]

/-- Lookup after inserting a different key. -/
theorem Fields.get?_insert_of_ne (fs : Fields) (k k' : String) (v : Value)
    (h : k' ≠ k) : (fs.insert k v).get? k' = fs.get? k' := by
  have h' : k ≠ k' := Ne.symm h
  induction fs with
  | nil => simp [Fields.insert, Fields.get?, h']
  | cons kv rest ih =>
      obtain ⟨k₀, v₀⟩ := kv
      by_cases h₀ : k₀ = k
      · subst h₀
        simp [Fields.insert, Fields.get?, h']
      · simp only [Fields.insert, beq_iff_eq, h₀, if_false]
        by_cases h₁ : k₀ = k'
        · simp [Fields.get?, h₁]
        · simp [Fields.get?, h₁, ih]

/-- The resolved name of capture group `i` (an unnamed group resolves to
`$i`). -/
def resolveName (n : String) (i : Nat) : String :=
  if n = "" then "$" ++ toString i else n

/-- The resolved names of the subexpressions from index `i` on. -/
def resolvedTail (i : Nat) : List String → List String
  | [] => []
  | n :: ns => resolveName n i :: resolvedTail (i + 1) ns

/-- `writeGroups` leaves alone every key it does not write. -/
theorem writeGroups_get?_of_not_in_tail (names : List String) (i0 : Nat)
    (gs : List String) (fs : Fields) (K : String)
    (h : K ∉ resolvedTail i0 names) :
    (writeGroups i0 names gs fs).get? K = fs.get? K := by
  induction names generalizing i0 gs fs with
  | nil => cases gs <;> simp [writeGroups]
  | cons n ns ih =>
      cases gs with
      | nil => simp [writeGroups]
      | cons g gs' =>
          simp only [resolvedTail, List.mem_cons, not_or] at h
          simp only [writeGroups]
          by_cases hz : i0 = 0
          · subst hz
            simp only [if_pos rfl]
            exact ih 1 gs' fs h.2
          · simp only [if_neg hz]
            rw [ih (i0 + 1) gs' _ h.2]
            exact Fields.get?_insert_of_ne fs _ K _ h.1

/-- Every capture group that is not shadowed by a later group of the same
resolved name ends up in the field mapping at its resolved name. -/
theorem writeGroups_get?_written (names gs : List String) (i0 : Nat)
    (fs : Fields) (j : Nat) (hj : j < names.length) (hg : j < gs.length)
    (hnz : i0 + j ≠ 0)
    (hnd : resolveName (names.get ⟨j, hj⟩) (i0 + j) ∉
      resolvedTail (i0 + j + 1) (names.drop (j + 1))) :
    (writeGroups i0 names gs fs).get? (resolveName (names.get ⟨j, hj⟩) (i0 + j)) =
      some (.vStr (gs.get ⟨j, hg⟩)) := by
  induction names generalizing i0 gs fs j with
  | nil => exact absurd hj (by simp)
  | cons n ns ih =>
      cases gs with
      | nil => exact absurd hg (by simp)
      | cons g gs' =>
          cases j with
          | zero =>
              simp only [List.get] at hnd ⊢
              simp only [Nat.add_zero] at hnz hnd ⊢
              simp only [writeGroups, if_neg hnz]
              rw [writeGroups_get?_of_not_in_tail ns (i0 + 1) gs' _ _ (by simpa using hnd)]
              exact Fields.get?_insert_self fs _ _
          | succ j' =>
              simp only [List.get] at hnd ⊢
              simp only [writeGroups]
              have harith : i0 + (j' + 1) = (i0 + 1) + j' := by omega
              by_cases hz : i0 = 0
              · subst hz
                refine ?_
                have := ih gs' 1 fs j' (by simpa using hj) (by simpa using hg)
                  (by omega) ?_
                · simpa [harith] using this
                · simpa [harith] using hnd
              · simp only [if_neg hz]
                have := ih gs' (i0 + 1)
                  (fs.insert (resolveName n i0) (.vStr g)) j'
                  (by simpa using hj) (by simpa using hg) (by omega) ?_
                · simpa [harith] using this
                · simpa [harith] using hnd

/-- C7: when the (no-match) filter regex matches a record in message
scope, the regex stage rewrites the record to carry every capture group
of the winning match as new fields, and `Run` returns exactly that
mutated record together with the "filtered" verdict — the mutation
persists even though the record is dropped, both when the drop comes from
the matching regex alone (no jq program) and when a jq stage also drops
the record by yielding no output.  Unshadowed groups are retrievable at
their resolved names. -/
theorem C7_captures_persist_when_dropped (rx : Regexp) (l : Rec)
    (jq : Option JQCode) (gs : List String)
    (hfind : rx.findStringSubmatch l.msg = some gs) (hne : gs ≠ [])
    (hjq : ∀ code, jq = some code →
      code { l with fields := writeGroups 0 rx.subexpNames gs l.fields } = []) :
    FilterScheme.Run
        { NoMatchRegex := some rx, JQ := jq, Scope := RegexpScopeMessage } l =
      .ok (true, { l with fields := writeGroups 0 rx.subexpNames gs l.fields }) ∧
    (∀ (j : Nat) (hj : j < rx.subexpNames.length) (hg : j < gs.length),
      j ≠ 0 →
      resolveName (rx.subexpNames.get ⟨j, hj⟩) j ∉
        resolvedTail (j + 1) (rx.subexpNames.drop (j + 1)) →
      (writeGroups 0 rx.subexpNames gs l.fields).get?
          (resolveName (rx.subexpNames.get ⟨j, hj⟩) j) =
        some (.vStr (gs.get ⟨j, hg⟩))) := by
  constructor
  · have happ : applyRegexp rx l l.msg =
        ({ l with fields := writeGroups 0 rx.subexpNames gs l.fields }, true) := by
      unfold applyRegexp
      rw [hfind]
      simp [List.length_eq_zero, hne]
    have hs : scopeHas RegexpScopeMessage RegexpScopeMessage = true := by decide
    have hrun : runRegexp rx l RegexpScopeMessage =
        ({ l with fields := writeGroups 0 rx.subexpNames gs l.fields }, true) := by
      unfold runRegexp
      simp [hs, happ]
    cases jq with
    | none => simp [FilterScheme.Run, hrun, runJQ]
    | some code =>
        have hcode := hjq code rfl
        simp [FilterScheme.Run, hrun, runJQ, hcode]
  · intro j hj hg hjz hnd
    have h0 : (0 : Nat) + j ≠ 0 := by omega
    have := writeGroups_get?_written rx.subexpNames gs 0 l.fields j hj hg h0
      (by simpa using hnd)
    simpa using this

/-- A demonstration regexp with one named capture group. -/
def rxDemo : Regexp := {
  subexpNames := ["", "g"],
  findStringSubmatch := fun s => if s = "hello" then some ["hello", "ell"] else none }

/-- A record whose message the demonstration regexp matches. -/
def lDemo : Rec := { msg := "hello" }

/-- Witness for C7 at a concrete regexp, record and capture group. -/
theorem C7_captures_persist_when_dropped_witness :
    FilterScheme.Run
        { NoMatchRegex := some rxDemo, JQ := none, Scope := RegexpScopeMessage } lDemo =
      .ok (true, { lDemo with
        fields := writeGroups 0 rxDemo.subexpNames ["hello", "ell"] lDemo.fields }) ∧
    (writeGroups 0 rxDemo.subexpNames ["hello", "ell"] lDemo.fields).get? "g" =
      some (.vStr "ell") := by
  have h := C7_captures_persist_when_dropped rxDemo lDemo none ["hello", "ell"]
    (by rfl) (by decide) (fun code hc => by cases hc)
  refine ⟨h.1, ?_⟩
  have h2 := h.2 1 (by decide) (by decide) (by decide) (by decide)
  simpa [resolveName] using h2

/-! ## C8: field ordering -/

/-- Erasing a key empties its lookup. -/
theorem Fields.get?_erase_self (fs : Fields) (k : String) :
    (fs.erase k).get? k = none := by
  induction fs with
  | nil => simp [Fields.erase, Fields.get?]
  | cons kv rest ih =>
      obtain ⟨k₀, v₀⟩ := kv
      by_cases h₀ : k₀ = k
      · simp [Fields.erase, h₀, ih]
      · simp [Fields.erase, Fields.get?, h₀, ih]

/-- Erasing one key leaves other lookups alone. -/
theorem Fields.get?_erase_of_ne (fs : Fields) (k k' : String) (h : k' ≠ k) :
    (fs.erase k).get? k' = fs.get? k' := by
  induction fs with
  | nil => simp [Fields.erase, Fields.get?]
  | cons kv rest ih =>
      obtain ⟨k₀, v₀⟩ := kv
      by_cases h₀ : k₀ = k
      · subst h₀
        simp [Fields.erase, Fields.get?, Ne.symm h, ih]
      · by_cases h₁ : k₀ = k'
        · simp [Fields.erase, Fields.get?, h₀, h₁, h]
        · simp [Fields.erase, Fields.get?, h₀, h₁, ih]

/-- The keys after an erase are the filtered keys. -/
theorem Fields.keys_erase (fs : Fields) (k : String) :
    (fs.erase k).keys = fs.keys.filter (fun x => x ≠ k) := by
  induction fs with
  | nil => simp [Fields.erase, Fields.keys]
  | cons kv rest ih =>
      obtain ⟨k₀, v₀⟩ := kv
      by_cases h₀ : k₀ = k
      · simp [Fields.erase, Fields.keys, h₀, ih]
      · simp [Fields.erase, Fields.keys, h₀, ih]

/-- A key is present exactly when its lookup succeeds. -/
theorem Fields.mem_keys_iff_get?_isSome (fs : Fields) (k : String) :
    k ∈ fs.keys ↔ (fs.get? k).isSome := by
  induction fs with
  | nil => simp [Fields.keys, Fields.get?]
  | cons kv rest ih =>
      obtain ⟨k₀, v₀⟩ := kv
      by_cases h₀ : k₀ = k
      · simp [Fields.keys, Fields.get?, h₀]
      · simp [Fields.keys, Fields.get?, h₀, ih, Ne.symm h₀]

/-- The write pass writes exactly the listed keys that are present, in
list order (for a duplicate-free key list). -/
theorem writeList_fst_keys (ks : List String) (fs : Fields) (hnd : ks.Nodup) :
    ((writeList ks fs).1).map Prod.fst =
      ks.filter (fun k => (fs.get? k).isSome) := by
  induction ks generalizing fs with
  | nil => simp [writeList]
  | cons k ks ih =>
      obtain ⟨hk, hnd'⟩ := List.nodup_cons.mp hnd
      cases h : fs.get? k with
      | none =>
          simp only [writeList, h, List.filter_cons]
          simp [ih fs hnd']
      | some v =>
          simp only [writeList, h, List.filter_cons]
          have := ih (fs.erase k) hnd'
          have hcong : ks.filter (fun k' => ((fs.erase k).get? k').isSome) =
              ks.filter (fun k' => (fs.get? k').isSome) := by
            apply List.filter_congr
            intro x hx
            rw [Fields.get?_erase_of_ne fs k x (fun he => hk (he ▸ hx))]
          simp only [List.map_cons] at *
          simp [this, hcong]

/-- The write pass deletes exactly the listed keys. -/
theorem writeList_rest_get? (ks : List String) (fs : Fields) (k : String) :
    ((writeList ks fs).2).get? k = if k ∈ ks then none else fs.get? k := by
  induction ks generalizing fs with
  | nil => simp [writeList]
  | cons k₀ ks ih =>
      cases h : fs.get? k₀ with
      | none =>
          simp only [writeList, h]
          rw [ih fs]
          by_cases hk : k = k₀
          · subst hk
            simp [h]
          · simp [hk]
      | some v =>
          simp only [writeList, h]
          rw [ih (fs.erase k₀)]
          by_cases hk : k = k₀
          · subst hk
            simp [Fields.get?_erase_self]
          · simp [hk, Fields.get?_erase_of_ne fs k₀ k hk]

/-- The keys remaining after a write pass are those not listed. -/
theorem writeList_rest_keys (ks : List String) (fs : Fields) :
    ((writeList ks fs).2).keys = fs.keys.filter (fun k => ¬k ∈ ks) := by
  induction ks generalizing fs with
  | nil => simp [writeList]
  | cons k₀ ks ih =>
      cases h : fs.get? k₀ with
      | none =>
          simp only [writeList, h]
          rw [ih fs]
          have hk₀ : k₀ ∉ fs.keys := by
            rw [Fields.mem_keys_iff_get?_isSome, h]
            simp
          apply List.filter_congr
          intro x hx
          have : x ≠ k₀ := fun he => hk₀ (he ▸ hx)
          simp [this]
      | some v =>
          simp only [writeList, h]
          rw [ih (fs.erase k₀), Fields.keys_erase]
          rw [List.filter_filter]
          apply List.filter_congr
          intro x hx
          by_cases hxk : x = k₀ <;> simp [hxk]

/-- A formatter that never rewrites the seen-field order (every formatter
in the repository satisfies this; the interface would allow violating
it). -/
def preservesSeen (F : Fmtr) : Prop :=
  (∀ s t, (F.formatTime s t).1.seenFields = s.seenFields) ∧
  (∀ s lv, (F.formatLevel s lv).1.seenFields = s.seenFields) ∧
  (∀ s m h, (F.formatMessage s m h).1.seenFields = s.seenFields) ∧
  (∀ s k v, (F.formatField s k v).1.seenFields = s.seenFields)

/-- Rendering field writes does not change the seen-field order. -/
theorem renderWrites_seenFields (F : Fmtr)
    (hF : ∀ s k v, (F.formatField s k v).1.seenFields = s.seenFields)
    (ws : List (String × Value)) (st : State) (ns : Bool) :
    (renderWrites F st ns ws).1.seenFields = st.seenFields := by
  induction ws generalizing st ns with
  | nil => simp [renderWrites]
  | cons kv rest ih =>
      obtain ⟨k, v⟩ := kv
      simp only [renderWrites]
      rw [ih]
      exact hF st k v

/-- The header stage keeps the seen-field order when the formatter
does. -/
theorem emitHeader_seenFields (outs : OutputSchema) (F : Fmtr) (l : Rec)
    (hF : preservesSeen F) :
    (emitHeader outs F l).1.seenFields = outs.state.seenFields := by
  obtain ⟨hT, hL, hM, _⟩ := hF
  unfold emitHeader
  by_cases h1 : outs.noLevel <;> by_cases h2 : outs.noTime <;>
    by_cases h3 : outs.noMessage <;> simp [h1, h2, h3, hT, hL, hM]

/-- `padTime` only changes the time-column width. -/
theorem padTime_lastFields (s : State) (out : String) :
    (padTime s out).1.lastFields = s.lastFields := by
  unfold padTime
  dsimp only
  split_ifs <;> rfl

/-- The default time formatter leaves the elision memory alone. -/
theorem defaultFormatTime_lastFields (f : DefaultOutputFormatter) (s : State)
    (t : GoTime) : (defaultFormatTime f s t).1.lastFields = s.lastFields := by
  cases t <;> simp [defaultFormatTime, padTime_lastFields]

/-- The default formatter never rewrites the seen-field order. -/
theorem defaultFmtr_preservesSeen (f : DefaultOutputFormatter) :
    preservesSeen f.toFmtr := by
  refine ⟨fun s t => ?_, fun s lv => rfl, fun s m h => rfl, fun s k v => ?_⟩
  · show (defaultFormatTime f s t).1.seenFields = s.seenFields
    cases t <;> simp [defaultFormatTime, padTime] <;> split_ifs <;> rfl
  · show (defaultFormatField f s k v).1.seenFields = s.seenFields
    unfold defaultFormatField
    by_cases hE : f.ElideDuplicateFields <;> simp [hE]
    cases h : lastFieldsGet? s.lastFields k <;> simp [h]
    split_ifs <;> rfl

/-- The header stage of `Emit` with the default formatter leaves the
elision memory alone. -/
theorem emitHeader_default_lastFields (outs : OutputSchema)
    (f : DefaultOutputFormatter) (l : Rec) :
    (emitHeader outs f.toFmtr l).1.lastFields = outs.state.lastFields := by
  unfold emitHeader
  by_cases h1 : outs.noLevel <;> by_cases h2 : outs.noTime <;>
    by_cases h3 : outs.noMessage <;>
    simp [h1, h2, h3, DefaultOutputFormatter.toFmtr, defaultFormatTime_lastFields,
      defaultFormatLevel, defaultFormatMessage]

/-- Processing several records through `Emit` (the cross-line state
evolution; the rendered bytes are not needed here). -/
def emitMany (outs : OutputSchema) : List Rec → OutputSchema
  | [] => outs
  | r :: rs => emitMany (Emit outs r "").1 rs

/-- `Emit` never changes the configured formatter. -/
theorem Emit_formatter (outs : OutputSchema) (l : Rec) (buf : String) :
    (Emit outs l buf).1.Formatter = outs.Formatter := by
  unfold Emit
  split_ifs <;> rfl

/-- `Emit` on a non-separator record appends exactly the sorted new keys
to the seen-field order, provided the formatter leaves that order alone. -/
theorem Emit_seenFields (outs : OutputSchema) (l : Rec) (buf : String)
    (hsep : l.isSeparator = false)
    (hF : preservesSeen (outs.Formatter.getD (DefaultOutputFormatter.toFmtr {}))) :
    (Emit outs l buf).1.state.seenFields =
      outs.state.seenFields ++
        emitNewKeys outs.PriorityFields outs.state.seenFields l.fields := by
  have hH := emitHeader_seenFields outs
    (outs.Formatter.getD (DefaultOutputFormatter.toFmtr {})) l hF
  unfold Emit
  rw [if_neg (by simp [hsep])]
  rcases he : emitHeader outs
      (outs.Formatter.getD (DefaultOutputFormatter.toFmtr {})) l with ⟨stH, outH, nsH⟩
  rw [he] at hH
  simp only at hH
  simp only [he]
  rw [renderWrites_seenFields _ hF.2.2.2]
  simp [hH]

/-- `Emit` only ever appends to the seen-field order. -/
theorem Emit_seenFields_ext (outs : OutputSchema) (l : Rec) (buf : String)
    (hF : preservesSeen (outs.Formatter.getD (DefaultOutputFormatter.toFmtr {}))) :
    ∃ Δ, (Emit outs l buf).1.state.seenFields = outs.state.seenFields ++ Δ := by
  by_cases hsep : l.isSeparator
  · refine ⟨[], ?_⟩
    unfold Emit
    rw [if_pos hsep]
    simp
  · exact ⟨_, Emit_seenFields outs l buf (by simpa using hsep) hF⟩

/-- Across any sequence of later records, the seen-field order only grows
by appending, so the relative position of previously seen keys never
changes. -/
theorem emitMany_seenFields_ext (rs : List Rec) (outs : OutputSchema)
    (hF : preservesSeen (outs.Formatter.getD (DefaultOutputFormatter.toFmtr {}))) :
    ∃ Δ, (emitMany outs rs).state.seenFields = outs.state.seenFields ++ Δ := by
  induction rs generalizing outs with
  | nil => exact ⟨[], by simp [emitMany]⟩
  | cons r rest ih =>
      obtain ⟨Δ₁, h₁⟩ := Emit_seenFields_ext outs r "" hF
      have hF' : preservesSeen ((Emit outs r "").1.Formatter.getD
          (DefaultOutputFormatter.toFmtr {})) := by
        rw [Emit_formatter]
        exact hF
      obtain ⟨Δ₂, h₂⟩ := ih (Emit outs r "").1 hF'
      exact ⟨Δ₁ ++ Δ₂, by simp [emitMany, h₂, h₁]⟩

/-- The new keys of an `Emit` are the record's keys that are neither
priority nor previously seen, in sorted order. -/
theorem emitNewKeys_eq (prio seen : List String) (fs : Fields) :
    emitNewKeys prio seen fs =
      sortStrings (fs.keys.filter (fun k => ¬k ∈ prio ∧ ¬k ∈ seen)) := by
  unfold emitNewKeys
  congr 1
  rw [writeList_rest_keys, writeList_rest_keys, List.filter_filter]
  apply List.filter_congr
  intro x _
  by_cases h1 : x ∈ prio <;> by_cases h2 : x ∈ seen <;> simp [h1, h2]

/-- The rendered key sequence of `Emit`: priority fields first in
configured order, then previously seen fields in first-seen order, then
the remaining new fields in sorted order. -/
theorem emitWrites_keys (prio seen : List String) (fs : Fields)
    (hp : prio.Nodup) (hs : seen.Nodup) (hf : fs.keys.Nodup) :
    (emitWrites prio seen fs).map Prod.fst =
      prio.filter (fun k => (fs.get? k).isSome)
      ++ seen.filter (fun k => ¬k ∈ prio ∧ (fs.get? k).isSome)
      ++ sortStrings (fs.keys.filter (fun k => ¬k ∈ prio ∧ ¬k ∈ seen)) := by
  have h1 : ((writeList prio fs).1).map Prod.fst =
      prio.filter (fun k => (fs.get? k).isSome) := writeList_fst_keys prio fs hp
  have h2 : ((writeList seen (writeList prio fs).2).1).map Prod.fst =
      seen.filter (fun k => ¬k ∈ prio ∧ (fs.get? k).isSome) := by
    rw [writeList_fst_keys seen _ hs]
    apply List.filter_congr
    intro x _
    rw [writeList_rest_get?]
    by_cases hx : x ∈ prio <;> simp [hx]
  have hrest2keys : ((writeList seen (writeList prio fs).2).2).keys =
      fs.keys.filter (fun k => ¬k ∈ prio ∧ ¬k ∈ seen) := by
    rw [writeList_rest_keys, writeList_rest_keys, List.filter_filter]
    apply List.filter_congr
    intro x _
    by_cases hx : x ∈ prio <;> by_cases hy : x ∈ seen <;> simp [hx, hy]
  have hnd2 : (sortStrings ((writeList seen (writeList prio fs).2).2).keys).Nodup := by
    refine (List.Perm.nodup_iff (List.perm_insertionSort _ _)).mpr ?_
    rw [hrest2keys]
    exact hf.filter _
  have h3 : ((writeList
        (sortStrings ((writeList seen (writeList prio fs).2).2).keys)
        (writeList seen (writeList prio fs).2).2).1).map Prod.fst =
      sortStrings (fs.keys.filter (fun k => ¬k ∈ prio ∧ ¬k ∈ seen)) := by
    rw [writeList_fst_keys _ _ hnd2]
    rw [List.filter_eq_self.mpr, hrest2keys]
    intro k hk
    have hmem : k ∈ ((writeList seen (writeList prio fs).2).2).keys :=
      (List.perm_insertionSort (fun a b => a ≤ b) _).mem_iff.mp hk
    exact (Fields.mem_keys_iff_get?_isSome _ k).mp hmem
  unfold emitWrites
  simp only [List.map_append, h1, h2, h3]

/-- C8: `Emit` renders configured priority fields first in configured
order, then previously seen fields in first-seen order, then the
remaining new fields in sorted order; the new fields are appended to the
append-only seen-order list, and over any sequence of later records the
list only ever grows by appending, so the relative position of a key
among previously seen keys never changes for the rest of the run. -/
theorem C8_field_order (outs : OutputSchema) (l : Rec) (buf : String)
    (rs : List Rec)
    (hsep : l.isSeparator = false)
    (hprio : outs.PriorityFields.Nodup)
    (hseen : outs.state.seenFields.Nodup)
    (hfnd : l.fields.keys.Nodup)
    (hF : preservesSeen (outs.Formatter.getD (DefaultOutputFormatter.toFmtr {}))) :
    (emitWrites outs.PriorityFields outs.state.seenFields l.fields).map Prod.fst =
      outs.PriorityFields.filter (fun k => (l.fields.get? k).isSome)
      ++ outs.state.seenFields.filter
          (fun k => ¬k ∈ outs.PriorityFields ∧ (l.fields.get? k).isSome)
      ++ sortStrings (l.fields.keys.filter
          (fun k => ¬k ∈ outs.PriorityFields ∧ ¬k ∈ outs.state.seenFields)) ∧
    (sortStrings (l.fields.keys.filter
        (fun k => ¬k ∈ outs.PriorityFields ∧ ¬k ∈ outs.state.seenFields))).Sorted
      (· ≤ ·) ∧
    (Emit outs l buf).1.state.seenFields =
      outs.state.seenFields ++ sortStrings (l.fields.keys.filter
        (fun k => ¬k ∈ outs.PriorityFields ∧ ¬k ∈ outs.state.seenFields)) ∧
    ∃ Δ, (emitMany (Emit outs l buf).1 rs).state.seenFields =
      outs.state.seenFields ++ sortStrings (l.fields.keys.filter
        (fun k => ¬k ∈ outs.PriorityFields ∧ ¬k ∈ outs.state.seenFields)) ++ Δ := by
  refine ⟨emitWrites_keys _ _ _ hprio hseen hfnd, ?_, ?_, ?_⟩
  · exact List.sorted_insertionSort _ _
  · rw [Emit_seenFields outs l buf hsep hF, emitNewKeys_eq]
  · have hF' : preservesSeen ((Emit outs l buf).1.Formatter.getD
        (DefaultOutputFormatter.toFmtr {})) := by
      rw [Emit_formatter]
      exact hF
    obtain ⟨Δ, hΔ⟩ := emitMany_seenFields_ext rs (Emit outs l buf).1 hF'
    refine ⟨Δ, ?_⟩
    rw [hΔ, Emit_seenFields outs l buf hsep hF, emitNewKeys_eq, List.append_assoc]

/-- The package's test formatter never touches the seen-field order. -/
theorem testFmtr_preservesSeen : preservesSeen testFmtr := by
  refine ⟨fun s t => ?_, fun s lv => rfl, fun s m h => rfl, fun s k v => ?_⟩
  · cases t <;> rfl
  · show (testFormatField s k v).1.seenFields = s.seenFields
    unfold testFormatField
    cases h : lastFieldsGet? s.lastFields k
    · rfl
    · simp only [h]
      split_ifs <;> rfl

/-- A demonstration output schema: priority field `baz`, key `bar`
already seen. -/
def c8outs : OutputSchema := {
  Formatter := some testFmtr, PriorityFields := ["baz"],
  state := { seenFields := ["bar"] } }

/-- A demonstration record with one priority field, one seen field and
two new fields. -/
def c8rec : Rec := {
  fields := [("foo", .vStr "1"), ("bar", .vStr "2"), ("baz", .vStr "3"),
             ("alpha", .vStr "4")] }

/-- Witness for C8 at a concrete schema and record. -/
theorem C8_field_order_witness :
    (emitWrites c8outs.PriorityFields c8outs.state.seenFields c8rec.fields).map Prod.fst =
      c8outs.PriorityFields.filter (fun k => (c8rec.fields.get? k).isSome)
      ++ c8outs.state.seenFields.filter
          (fun k => ¬k ∈ c8outs.PriorityFields ∧ (c8rec.fields.get? k).isSome)
      ++ sortStrings (c8rec.fields.keys.filter
          (fun k => ¬k ∈ c8outs.PriorityFields ∧ ¬k ∈ c8outs.state.seenFields)) ∧
    (sortStrings (c8rec.fields.keys.filter
        (fun k => ¬k ∈ c8outs.PriorityFields ∧ ¬k ∈ c8outs.state.seenFields))).Sorted
      (· ≤ ·) ∧
    (Emit c8outs c8rec "").1.state.seenFields =
      c8outs.state.seenFields ++ sortStrings (c8rec.fields.keys.filter
        (fun k => ¬k ∈ c8outs.PriorityFields ∧ ¬k ∈ c8outs.state.seenFields)) ∧
    ∃ Δ, (emitMany (Emit c8outs c8rec "").1 [{ fields := [("zzz", .vNull)] }]).state.seenFields =
      c8outs.state.seenFields ++ sortStrings (c8rec.fields.keys.filter
        (fun k => ¬k ∈ c8outs.PriorityFields ∧ ¬k ∈ c8outs.state.seenFields)) ++ Δ :=
  C8_field_order c8outs c8rec "" [{ fields := [("zzz", .vNull)] }]
    rfl (by decide) (by decide) (by decide) testFmtr_preservesSeen

/-! ## C9: value elision -/

/-- Lookup after remembering the same key. -/
theorem lastFieldsGet?_set_self (m : List (String × String)) (k v : String) :
    lastFieldsGet? (lastFieldsSet m k v) k = some v := by
  induction m with
  | nil => simp [lastFieldsSet, lastFieldsGet?]
  | cons kv rest ih =>
      obtain ⟨k₀, v₀⟩ := kv
      by_cases h₀ : k₀ = k
      · simp [lastFieldsSet, lastFieldsGet?, h₀]
      · simp [lastFieldsSet, lastFieldsGet?, h₀, ih]

/-- Lookup after remembering a different key. -/
theorem lastFieldsGet?_set_of_ne (m : List (String × String)) (k k' v : String)
    (h : k' ≠ k) : lastFieldsGet? (lastFieldsSet m k v) k' = lastFieldsGet? m k' := by
  have h' : k ≠ k' := Ne.symm h
  induction m with
  | nil => simp [lastFieldsSet, lastFieldsGet?, h']
  | cons kv rest ih =>
      obtain ⟨k₀, v₀⟩ := kv
      by_cases h₀ : k₀ = k
      · subst h₀
        simp [lastFieldsSet, lastFieldsGet?, h']
      · by_cases h₁ : k₀ = k'
        · simp [lastFieldsSet, lastFieldsGet?, h₀, h₁, h]
        · simp [lastFieldsSet, lastFieldsGet?, h₀, h₁, ih]

/-- A key outside the keep list is forgotten. -/
theorem lastFieldsGet?_keep_of_not_mem (m : List (String × String))
    (keep : List String) (k : String) (h : ¬k ∈ keep) :
    lastFieldsGet? (lastFieldsKeep m keep) k = none := by
  induction m with
  | nil => simp [lastFieldsKeep, lastFieldsGet?]
  | cons kv rest ih =>
      obtain ⟨k₀, v₀⟩ := kv
      by_cases hc : k₀ ∈ keep
      · by_cases h₀ : k₀ = k
        · subst h₀
          exact absurd hc h
        · simp [lastFieldsKeep, lastFieldsGet?, hc, h₀, ih]
      · simp [lastFieldsKeep, hc, ih]

/-- A key inside the keep list keeps its remembered value. -/
theorem lastFieldsGet?_keep_of_mem (m : List (String × String))
    (keep : List String) (k : String) (h : k ∈ keep) :
    lastFieldsGet? (lastFieldsKeep m keep) k = lastFieldsGet? m k := by
  induction m with
  | nil => simp [lastFieldsKeep, lastFieldsGet?]
  | cons kv rest ih =>
      obtain ⟨k₀, v₀⟩ := kv
      by_cases hc : k₀ ∈ keep
      · simp [lastFieldsKeep, lastFieldsGet?, hc, ih]
      · by_cases h₀ : k₀ = k
        · subst h₀
          exact absurd h hc
        · simp [lastFieldsKeep, lastFieldsGet?, hc, h₀, ih]

/-- With elision on, `FormatField` always remembers the value it just
serialized for its key and touches no other key's memory. -/
theorem defaultFormatField_lastFields (f : DefaultOutputFormatter)
    (hE : f.ElideDuplicateFields = true) (st : State) (k k' : String) (v : Value) :
    lastFieldsGet? (defaultFormatField f st k v).1.lastFields k' =
      (if k' = k then some (serializeFieldValue v)
       else lastFieldsGet? st.lastFields k') := by
  unfold defaultFormatField
  simp only [hE, if_true]
  by_cases hk : k' = k
  · subst hk
    cases h : lastFieldsGet? st.lastFields k' <;>
      simp [h, lastFieldsGet?_set_self] <;> split_ifs <;>
      simp [lastFieldsGet?_set_self]
  · cases h : lastFieldsGet? st.lastFields k <;>
      simp [h, hk, lastFieldsGet?_set_of_ne _ _ _ _ hk] <;> split_ifs <;>
      simp [hk, lastFieldsGet?_set_of_ne _ _ _ _ hk]

/-- Rendering a write list with the default formatter leaves the memory
of unwritten keys alone. -/
theorem renderWrites_default_not_mem (f : DefaultOutputFormatter)
    (hE : f.ElideDuplicateFields = true) (ws : List (String × Value))
    (st : State) (ns : Bool) (k : String) (hk : ¬k ∈ ws.map Prod.fst) :
    lastFieldsGet? ((renderWrites f.toFmtr st ns ws).1).lastFields k =
      lastFieldsGet? st.lastFields k := by
  induction ws generalizing st ns with
  | nil => simp [renderWrites]
  | cons kv rest ih =>
      obtain ⟨k₀, v₀⟩ := kv
      simp only [List.map_cons, List.mem_cons, not_or] at hk
      simp only [renderWrites]
      rw [ih _ _ hk.2]
      show lastFieldsGet? (defaultFormatField f st k₀ v₀).1.lastFields k = _
      rw [defaultFormatField_lastFields f hE st k₀ k v₀, if_neg hk.1]

/-- Rendering a write list with the default formatter remembers the
serialized value of each written key (for a duplicate-free write list). -/
theorem renderWrites_default_written (f : DefaultOutputFormatter)
    (hE : f.ElideDuplicateFields = true) (ws : List (String × Value))
    (st : State) (ns : Bool) (k : String) (v : Value)
    (hmem : (k, v) ∈ ws) (hnd : (ws.map Prod.fst).Nodup) :
    lastFieldsGet? ((renderWrites f.toFmtr st ns ws).1).lastFields k =
      some (serializeFieldValue v) := by
  induction ws generalizing st ns with
  | nil => cases hmem
  | cons kv rest ih =>
      obtain ⟨k₀, v₀⟩ := kv
      simp only [List.map_cons, List.nodup_cons] at hnd
      rcases List.mem_cons.mp hmem with heq | htail
      · cases heq
        simp only [renderWrites]
        rw [renderWrites_default_not_mem f hE rest _ true k hnd.1]
        show lastFieldsGet? (defaultFormatField f st k v).1.lastFields k = _
        rw [defaultFormatField_lastFields f hE st k k v, if_pos rfl]
      · simp only [renderWrites]
        exact ih _ _ htail hnd.2

/-- `Emit` (with a default formatter configured) forgets the elision
memory of every key it did not render. -/
theorem Emit_forgets_unrendered (f : DefaultOutputFormatter)
    (outs : OutputSchema) (l : Rec) (buf : String)
    (k : String) (hsep : l.isSeparator = false)
    (hfmt : outs.Formatter = some f.toFmtr)
    (hk : ¬k ∈ (emitWrites outs.PriorityFields outs.state.seenFields
      l.fields).map Prod.fst) :
    lastFieldsGet? (Emit outs l buf).1.state.lastFields k = none := by
  have hH := emitHeader_seenFields outs
    (outs.Formatter.getD (DefaultOutputFormatter.toFmtr {})) l
    (by rw [hfmt]; exact defaultFmtr_preservesSeen f)
  unfold Emit
  rw [if_neg (by simp [hsep])]
  rcases he : emitHeader outs
      (outs.Formatter.getD (DefaultOutputFormatter.toFmtr {})) l with ⟨stH, outH, nsH⟩
  rw [he] at hH
  simp only at hH
  simp only [he]
  exact lastFieldsGet?_keep_of_not_mem _ _ _ (by rw [hH]; exact hk)

/-- `Emit` with the (eliding) default formatter remembers the serialized
value of every key it rendered. -/
theorem Emit_remembers_rendered (f : DefaultOutputFormatter)
    (hE : f.ElideDuplicateFields = true) (outs : OutputSchema) (l : Rec)
    (buf : String) (k : String) (v : Value) (hsep : l.isSeparator = false)
    (hfmt : outs.Formatter = some f.toFmtr)
    (hmem : (k, v) ∈ emitWrites outs.PriorityFields outs.state.seenFields l.fields)
    (hnd : ((emitWrites outs.PriorityFields outs.state.seenFields
      l.fields).map Prod.fst).Nodup) :
    lastFieldsGet? (Emit outs l buf).1.state.lastFields k =
      some (serializeFieldValue v) := by
  have hH := emitHeader_seenFields outs
    (outs.Formatter.getD (DefaultOutputFormatter.toFmtr {})) l
    (by rw [hfmt]; exact defaultFmtr_preservesSeen f)
  unfold Emit
  rw [if_neg (by simp [hsep])]
  simp only [hfmt, Option.getD_some]
  rw [hfmt] at hH
  simp only [Option.getD_some] at hH
  rcases he : emitHeader outs f.toFmtr l with ⟨stH, outH, nsH⟩
  rw [he] at hH
  simp only at hH
  simp only [he]
  rw [hH]
  rw [lastFieldsGet?_keep_of_mem _ _ _ (List.mem_map_of_mem Prod.fst hmem)]
  exact renderWrites_default_written f hE _ _ _ k v hmem hnd

/-- C9: with elision enabled, a field value whose canonical serialization
equals the one remembered for its key renders as the placeholder glyph;
a differing value renders literally and replaces the memory; a key with
no memory renders literally; `Emit` forgets the memory of every key not
rendered on the current record (so its next appearance is never elided
against stale data) and remembers the serialization of every key it did
render. -/
theorem C9_elision (f : DefaultOutputFormatter) (hE : f.ElideDuplicateFields = true)
    (outs : OutputSchema) (l : Rec) (buf : String) (st : State)
    (k : String) (v : Value) (old : String) :
    (lastFieldsGet? st.lastFields k = some (serializeFieldValue v) →
      defaultFormatField f st k v =
        ({ st with lastFields := lastFieldsSet st.lastFields k (serializeFieldValue v) },
         k ++ ":" ++ "↑")) ∧
    (lastFieldsGet? st.lastFields k = some old → old ≠ serializeFieldValue v →
      defaultFormatField f st k v =
        ({ st with lastFields := lastFieldsSet st.lastFields k (serializeFieldValue v) },
         k ++ ":" ++ serializeFieldValue v)) ∧
    (lastFieldsGet? st.lastFields k = none →
      defaultFormatField f st k v =
        ({ st with lastFields := lastFieldsSet st.lastFields k (serializeFieldValue v) },
         k ++ ":" ++ serializeFieldValue v)) ∧
    (l.isSeparator = false → outs.Formatter = some f.toFmtr →
      ¬k ∈ (emitWrites outs.PriorityFields outs.state.seenFields l.fields).map Prod.fst →
      lastFieldsGet? (Emit outs l buf).1.state.lastFields k = none) ∧
    (l.isSeparator = false → outs.Formatter = some f.toFmtr →
      (k, v) ∈ emitWrites outs.PriorityFields outs.state.seenFields l.fields →
      ((emitWrites outs.PriorityFields outs.state.seenFields l.fields).map
        Prod.fst).Nodup →
      lastFieldsGet? (Emit outs l buf).1.state.lastFields k =
        some (serializeFieldValue v)) := by
  refine ⟨fun h => ?_, fun h hne => ?_, fun h => ?_, ?_, ?_⟩
  · unfold defaultFormatField
    simp [hE, h]
  · unfold defaultFormatField
    simp [hE, h, hne]
  · unfold defaultFormatField
    simp [hE, h]
  · intro hsep hfmt hk
    exact Emit_forgets_unrendered f outs l buf k hsep hfmt hk
  · intro hsep hfmt hmem hnd
    exact Emit_remembers_rendered f hE outs l buf k v hsep hfmt hmem hnd

/-- The eliding default formatter configuration. -/
def fElide : DefaultOutputFormatter := { ElideDuplicateFields := true }

/-- An output schema using the eliding default formatter. -/
def c9outs : OutputSchema := { Formatter := some fElide.toFmtr }

/-- Witness for C9 at concrete states and records: `a:1` elides against a
remembered `1`, renders literally against a remembered `2` or no memory,
a record without `a` makes `Emit` forget it, and a record with `a` makes
`Emit` remember its serialization. -/
theorem C9_elision_witness :
    defaultFormatField fElide { lastFields := [("a", "1")] } "a" (.vNum 1) =
      ({ lastFields := lastFieldsSet [("a", "1")] "a" "1" }, "a:↑") ∧
    defaultFormatField fElide { lastFields := [("a", "2")] } "a" (.vNum 1) =
      ({ lastFields := lastFieldsSet [("a", "2")] "a" "1" }, "a:1") ∧
    defaultFormatField fElide {} "a" (.vNum 1) =
      ({ lastFields := lastFieldsSet [] "a" "1" }, "a:1") ∧
    lastFieldsGet? (Emit c9outs { fields := [("b", .vNull)] } "").1.state.lastFields
      "a" = none ∧
    lastFieldsGet? (Emit c9outs { fields := [("a", .vNum 1)] } "").1.state.lastFields
      "a" = some "1" :=
  ⟨(C9_elision fElide rfl c9outs {} "" { lastFields := [("a", "1")] } "a"
      (.vNum 1) "").1 rfl,
   (C9_elision fElide rfl c9outs {} "" { lastFields := [("a", "2")] } "a"
      (.vNum 1) "2").2.1 rfl (by decide),
   (C9_elision fElide rfl c9outs {} "" ({} : State) "a" (.vNum 1) "").2.2.1 rfl,
   (C9_elision fElide rfl c9outs { fields := [("b", .vNull)] } "" {} "a"
      (.vNum 1) "").2.2.2.1 rfl rfl (by decide),
   (C9_elision fElide rfl c9outs { fields := [("a", .vNum 1)] } "" {} "a"
      (.vNum 1) "").2.2.2.2 rfl rfl (List.Mem.head _) (by decide)⟩

/-! ## C4, C5: the context window -/

/-- The last `n` elements of a list (what survives the ring buffer). -/
def lastN (n : Nat) (l : List Rec) : List Rec := l.drop (l.length - n)

/-- `lastN` via reversal. -/
theorem lastN_eq_reverse_take (n : Nat) (l : List Rec) :
    lastN n l = (l.reverse.take n).reverse := by
  show l.rtake n = (l.reverse.take n).reverse
  rw [List.rtake_eq_reverse_take_reverse]

/-- Absorbing the ring buffer: keeping the last `n` before appending more
is the same as keeping the last `n` at the end. -/
theorem lastN_lastN_append (n : Nat) (x y : List Rec) :
    lastN n (lastN n x ++ y) = lastN n (x ++ y) := by
  simp only [lastN_eq_reverse_take, List.reverse_append, List.reverse_reverse]
  rw [List.take_append_eq_append_take, List.take_append_eq_append_take,
    List.take_take, min_eq_left (Nat.sub_le _ _)]

/-- One non-selected step of the context window (the ring-buffer /
trailing-context step), in closed form. -/
theorem ctxPrint_unsel (B A p t LP : Nat) (buf : List Rec) (r : Rec)
    (hlen : buf.length ≤ B) :
    ctxPrint { Before := B, After := A, lines := buf, printAfter := p,
               line := t, lastPrint := LP } r false =
      (if p > 0 then
        ({ Before := B, After := A, lines := buf, printAfter := p - 1,
           line := t + 1, lastPrint := t + 1 }, [r])
      else
        ({ Before := B, After := A, lines := lastN B (buf ++ [r]), printAfter := 0,
           line := t + 1, lastPrint := LP }, [])) := by
  unfold ctxPrint
  rw [if_neg (by simp)]
  by_cases hp : p > 0
  · rw [if_pos hp, if_pos hp]
  · rw [if_neg hp, if_neg hp]
    have hp0 : p = 0 := by omega
    subst hp0
    by_cases hB : B > 0
    · rw [if_pos hB]
      dsimp only
      have hev : (if (buf ++ [r]).length > B then (buf ++ [r]).drop 1
          else buf ++ [r]) = lastN B (buf ++ [r]) := by
        unfold lastN
        by_cases h : (buf ++ [r]).length > B
        · rw [if_pos h]
          congr 1
          simp at h ⊢
          omega
        · rw [if_neg h]
          simp at h
          have h0 : (buf ++ [r]).length - B = 0 := by simp; omega
          rw [h0, List.drop_zero]
      rw [hev]
    · rw [if_neg hB]
      have hB0 : B = 0 := by omega
      have hbuf0 : buf = [] := by
        cases buf with
        | nil => rfl
        | cons a b => simp [hB0] at hlen
      subst hB0
      subst hbuf0
      simp [lastN]

/-- Feeding a concatenation of streams through the context window. -/
theorem processCtx_append (c : Ctx) (xs ys : List (Rec × Bool)) :
    processCtx c (xs ++ ys) =
      ((processCtx (processCtx c xs).1 ys).1,
       (processCtx c xs).2 ++ (processCtx (processCtx c xs).1 ys).2) := by
  induction xs generalizing c with
  | nil => simp [processCtx]
  | cons rb rest ih =>
      obtain ⟨r, sel⟩ := rb
      simp only [List.cons_append, processCtx, List.append_eq]
      rw [ih]
      simp [List.append_assoc]

/-- A run of unselected records with the after-counter exhausted fills
the ring buffer and emits nothing. -/
theorem processCtx_buffer (ls : List Rec) (B A LP : Nat) (buf : List Rec)
    (t : Nat) (hlen : buf.length ≤ B) :
    processCtx {
        Before := B, After := A, lines := buf, printAfter := 0,
        line := t, lastPrint := LP } (ls.map (fun r => (r, false))) =
      ({
        Before := B, After := A, lines := lastN B (buf ++ ls), printAfter := 0,
        line := t + ls.length, lastPrint := LP }, []) := by
  induction ls generalizing buf t with
  | nil =>
      unfold lastN
      simp [processCtx, Nat.sub_eq_zero_of_le hlen]
  | cons r ls ih =>
      simp only [List.map_cons, processCtx]
      rw [ctxPrint_unsel B A 0 t LP buf r hlen]
      rw [if_neg (by omega)]
      have hlen2 : (lastN B (buf ++ [r])).length ≤ B := by
        unfold lastN
        simp
        omega
      rw [ih (lastN B (buf ++ [r])) (t + 1) hlen2]
      have h1 : lastN B (lastN B (buf ++ [r]) ++ ls) = lastN B (buf ++ r :: ls) := by
        rw [lastN_lastN_append]
        congr 1
        simp
      have h2 : t + 1 + ls.length = t + (r :: ls).length := by
        simp
        omega
      rw [h1, h2]
      simp

/-- A whole phase of unselected records from a state with an empty
buffer: the first `printAfter` records are emitted as trailing context,
the rest fill the ring buffer. -/
theorem processCtx_unsel (ls : List Rec) (B A p t LP : Nat) :
    processCtx {
        Before := B, After := A, lines := [], printAfter := p,
        line := t, lastPrint := LP } (ls.map (fun r => (r, false))) =
      ({
        Before := B, After := A, lines := lastN B (ls.drop p),
        printAfter := p - ls.length, line := t + ls.length,
        lastPrint := if min p ls.length = 0 then LP else t + min p ls.length },
       ls.take p) := by
  induction ls generalizing p t LP with
  | nil => simp [processCtx, lastN]
  | cons r ls ih =>
      cases p with
      | zero =>
          rw [processCtx_buffer (r :: ls) B A LP [] t (by simp)]
          simp
      | succ q =>
          simp only [List.map_cons, processCtx]
          rw [ctxPrint_unsel B A (q + 1) t LP [] r (by simp)]
          rw [if_pos (by omega)]
          simp only [Nat.add_sub_cancel]
          rw [ih q (t + 1) (t + 1)]
          have hmin : min (q + 1) (r :: ls).length = min q ls.length + 1 := by
            simp
            omega
          have h3 : (if min q ls.length = 0 then t + 1 else t + 1 + min q ls.length) =
              t + (min q ls.length + 1) := by
            split_ifs with h <;> omega
          have h4 : q - ls.length = q + 1 - (r :: ls).length := by
            simp
          have h5 : t + 1 + ls.length = t + (r :: ls).length := by
            simp
            omega
          rw [h3, h4, h5, ← hmin]
          rw [if_neg (by omega)]
          simp

/-- The length of the ring buffer. -/
theorem lastN_length (n : Nat) (l : List Rec) :
    (lastN n l).length = min n l.length := by
  unfold lastN
  simp
  omega

/-- One selected step of the context window, in closed form. -/
theorem ctxPrint_sel (B A p t LP : Nat) (buf : List Rec) (x : Rec) :
    ctxPrint { Before := B, After := A, lines := buf, printAfter := p,
               line := t, lastPrint := LP } x true =
      ({ Before := B, After := A, lines := [], printAfter := A,
         line := t + 1, lastPrint := t + 1 },
       (if LP ≠ 0 ∧ (A ≠ 0 ∨ B ≠ 0) ∧ ((t + 1 : Int) - buf.length - LP > 1)
        then [sepRec] else []) ++ buf ++ [x]) := by
  unfold ctxPrint
  rw [if_pos rfl]
  rfl

/-- C4: an isolated selected record at position `i = |pre|` emits exactly
the region `[max(0, i-B), min(N-1, i+A)]` — the last `B` records before
it, itself, and the first `A` records after it — with no separator; and
two isolated selected records far enough apart (more than `A + B`
unselected records between them, with at least one window non-zero) emit
the two regions joined by exactly one separator record. -/
theorem C4_context_regions (pre mid post : List Rec) (x y : Rec) (B A : Nat) :
    (processCtx { Before := B, After := A }
        (pre.map (fun r => (r, false)) ++ [(x, true)] ++
         post.map (fun r => (r, false)))).2 =
      lastN B pre ++ [x] ++ post.take A ∧
    (mid.length > A + B → 0 < A + B →
      (processCtx { Before := B, After := A }
          (pre.map (fun r => (r, false)) ++ [(x, true)] ++
           mid.map (fun r => (r, false)) ++ [(y, true)] ++
           post.map (fun r => (r, false)))).2 =
        (lastN B pre ++ [x] ++ mid.take A) ++ [sepRec] ++
        (lastN B (mid.drop A) ++ [y] ++ post.take A)) := by
  have hinit : ({ Before := B, After := A } : Ctx) =
      { Before := B, After := A, lines := [], printAfter := 0,
        line := 0, lastPrint := 0 } := rfl
  have hphase1 := processCtx_unsel pre B A 0 0 0
  simp only [Nat.zero_min, Nat.zero_sub, if_true, List.drop_zero, Nat.zero_add,
    List.take_zero] at hphase1
  have hsel1 := ctxPrint_sel B A 0 pre.length 0 (lastN B pre) x
  rw [if_neg (by simp)] at hsel1
  constructor
  · rw [processCtx_append, processCtx_append]
    rw [hinit, hphase1]
    simp only [processCtx, hsel1]
    rw [processCtx_unsel post B A A (pre.length + 1) (pre.length + 1)]
    simp
  · intro hm hab
    rw [processCtx_append, processCtx_append, processCtx_append,
      processCtx_append]
    rw [hinit, hphase1]
    simp only [processCtx, hsel1]
    rw [processCtx_unsel mid B A A (pre.length + 1) (pre.length + 1)]
    have hLP3 : (if min A mid.length = 0 then pre.length + 1
        else pre.length + 1 + min A mid.length) = pre.length + 1 + A := by
      have hma : min A mid.length = A := by omega
      rw [hma]
      split_ifs with h <;> omega
    rw [hLP3]
    have hsel2 := ctxPrint_sel B A (A - mid.length) (pre.length + 1 + mid.length)
      (pre.length + 1 + A) (lastN B (mid.drop A)) y
    rw [if_pos ?side] at hsel2
    case side =>
      refine ⟨by omega, by omega, ?_⟩
      rw [lastN_length]
      have hdl : (mid.drop A).length = mid.length - A := by simp
      rw [hdl]
      have hminB : min B (mid.length - A) = B := by omega
      rw [hminB]
      push_cast
      omega
    rw [hsel2]
    rw [processCtx_unsel post B A A (pre.length + 1 + mid.length + 1)
      (pre.length + 1 + mid.length + 1)]
    simp

/-- A record with just a message, for demonstrations. -/
def c4r (s : String) : Rec := { msg := s }

/-- Witness for C4 with windows (1,1): one isolated match, and two
matches separated by three unselected records. -/
theorem C4_context_regions_witness :
    (processCtx { Before := 1, After := 1 }
        ([c4r "1", c4r "2"].map (fun r => (r, false)) ++ [(c4r "x", true)] ++
         [c4r "3", c4r "4"].map (fun r => (r, false)))).2 =
      lastN 1 [c4r "1", c4r "2"] ++ [c4r "x"] ++ [c4r "3", c4r "4"].take 1 ∧
    (processCtx { Before := 1, After := 1 }
        ([c4r "1", c4r "2"].map (fun r => (r, false)) ++ [(c4r "x", true)] ++
         [c4r "5", c4r "6", c4r "7"].map (fun r => (r, false)) ++
         [(c4r "y", true)] ++
         [c4r "3", c4r "4"].map (fun r => (r, false)))).2 =
      (lastN 1 [c4r "1", c4r "2"] ++ [c4r "x"] ++
        [c4r "5", c4r "6", c4r "7"].take 1) ++ [sepRec] ++
      (lastN 1 ([c4r "5", c4r "6", c4r "7"].drop 1) ++ [c4r "y"] ++
        [c4r "3", c4r "4"].take 1) :=
  ⟨(C4_context_regions [c4r "1", c4r "2"] [] [c4r "3", c4r "4"]
      (c4r "x") (c4r "y") 1 1).1,
   (C4_context_regions [c4r "1", c4r "2"] [c4r "5", c4r "6", c4r "7"]
      [c4r "3", c4r "4"] (c4r "x") (c4r "y") 1 1).2 (by decide) (by decide)⟩

/-- Any list of non-separator records trivially avoids adjacent
separators. -/
theorem chain'_of_nonsep (l : List Rec)
    (h : ∀ r ∈ l, r.isSeparator = false) :
    List.Chain' (fun a b => a.isSeparator = false ∨ b.isSeparator = false) l := by
  induction l with
  | nil => exact List.chain'_nil
  | cons a t ih =>
      refine List.chain'_cons'.mpr ⟨fun b _ => Or.inl (h a (by simp)), ?_⟩
      exact ih (fun r hr => h r (by simp [hr]))

/-- One `ctxPrint` step: the windows never change, the buffer only ever
absorbs input records, a zero `lastPrint` afterwards means nothing was
printed this step either, and the emitted chunk is input records with at
most one leading separator (emitted only mid-run with a window
configured, and never on its own). -/
theorem ctxPrint_cases (c : Ctx) (r : Rec) (sel : Bool) :
    (ctxPrint c r sel).1.Before = c.Before ∧
    (ctxPrint c r sel).1.After = c.After ∧
    (∀ x ∈ (ctxPrint c r sel).1.lines, x ∈ c.lines ∨ x = r) ∧
    ((ctxPrint c r sel).1.lastPrint = 0 →
      c.lastPrint = 0 ∧ (ctxPrint c r sel).1.printAfter = 0) ∧
    ∃ tail, (∀ x ∈ tail, x ∈ c.lines ∨ x = r) ∧
      (tail = [] → (ctxPrint c r sel).1.lastPrint = c.lastPrint) ∧
      ((ctxPrint c r sel).2 = tail ∨
       ((ctxPrint c r sel).2 = sepRec :: tail ∧ tail ≠ [] ∧ c.lastPrint ≠ 0 ∧
         (c.After ≠ 0 ∨ c.Before ≠ 0))) := by
  cases sel with
  | true =>
      unfold ctxPrint
      rw [if_pos rfl]
      dsimp only
      refine ⟨rfl, rfl, by simp, by intro h; omega, c.lines ++ [r], ?_,
        fun h => absurd h (by simp), ?_⟩
      · intro x hx
        rcases List.mem_append.mp hx with h | h
        · exact Or.inl h
        · exact Or.inr (by simpa using h)
      · split_ifs with h
        · exact Or.inr ⟨rfl, by simp, h.1, h.2.1⟩
        · exact Or.inl (by simp)
  | false =>
      unfold ctxPrint
      rw [if_neg (by simp)]
      dsimp only
      split_ifs with h1 h2 h3
      · exact ⟨rfl, rfl, fun x hx => Or.inl hx, fun h => absurd h (by simp),
          [r], by simp, fun h => absurd h (by simp), Or.inl rfl⟩
      · refine ⟨rfl, rfl, ?_, ?_, [], by simp, fun _ => rfl, Or.inl rfl⟩
        · intro x hx
          have hx' : x ∈ List.drop 1 (c.lines ++ [r]) := hx
          rcases List.mem_append.mp (List.drop_subset _ _ hx') with h | h
          · exact Or.inl h
          · exact Or.inr (by simpa using h)
        · intro h
          exact ⟨h, show c.printAfter = 0 by omega⟩
      · refine ⟨rfl, rfl, ?_, ?_, [], by simp, fun _ => rfl, Or.inl rfl⟩
        · intro x hx
          have hx' : x ∈ c.lines ++ [r] := hx
          rcases List.mem_append.mp hx' with h | h
          · exact Or.inl h
          · exact Or.inr (by simpa using h)
        · intro h
          exact ⟨h, show c.printAfter = 0 by omega⟩
      · exact ⟨rfl, rfl, fun x hx => Or.inl hx,
          fun h => ⟨h, show c.printAfter = 0 by omega⟩, [],
          by simp, fun _ => rfl, Or.inl rfl⟩

/-- The separator discipline of the context window, for any input stream
of non-separator records from any reachable state: no two adjacent
separators, the output never ends with a separator, and before anything
has been printed the output cannot start with one. -/
theorem processCtx_separator_discipline (inputs : List (Rec × Bool)) (c : Ctx)
    (hns : ∀ rb ∈ inputs, rb.1.isSeparator = false)
    (hbuf : ∀ r ∈ c.lines, r.isSeparator = false)
    (hlp : c.lastPrint = 0 → c.printAfter = 0) :
    List.Chain' (fun a b => a.isSeparator = false ∨ b.isSeparator = false)
      (processCtx c inputs).2 ∧
    (∀ r ∈ (processCtx c inputs).2.getLast?, r.isSeparator = false) ∧
    (c.lastPrint = 0 → ∀ r ∈ (processCtx c inputs).2.head?, r.isSeparator = false) := by
  induction inputs generalizing c with
  | nil => simp [processCtx]
  | cons rb rest ih =>
      obtain ⟨r, sel⟩ := rb
      have hr : r.isSeparator = false := hns (r, sel) (by simp)
      have hns' : ∀ rb ∈ rest, rb.1.isSeparator = false :=
        fun rb h => hns rb (by simp [h])
      obtain ⟨hB, hA, hlines, hlp0, tail, htail, hemptail, hchunk⟩ := ctxPrint_cases c r sel
      have htailns : ∀ x ∈ tail, x.isSeparator = false := by
        intro x hx
        rcases htail x hx with h | h
        · exact hbuf x h
        · exact h ▸ hr
      have hbuf' : ∀ x ∈ (ctxPrint c r sel).1.lines, x.isSeparator = false := by
        intro x hx
        rcases hlines x hx with h | h
        · exact hbuf x h
        · exact h ▸ hr
      have hlp' : (ctxPrint c r sel).1.lastPrint = 0 →
          (ctxPrint c r sel).1.printAfter = 0 :=
        fun h => (hlp0 h).2
      obtain ⟨ihChain, ihLast, ihHead⟩ := ih (ctxPrint c r sel).1 hns' hbuf' hlp'
      have hout : (processCtx c ((r, sel) :: rest)).2 =
          (ctxPrint c r sel).2 ++ (processCtx (ctxPrint c r sel).1 rest).2 := by
        simp [processCtx]
      set restOut := (processCtx (ctxPrint c r sel).1 rest).2 with hrest
      -- facts about the chunk
      have hchunkLast : ∀ x ∈ (ctxPrint c r sel).2.getLast?, x.isSeparator = false := by
        intro x hx
        rcases hchunk with h | ⟨h, hne, _, _⟩
        · rw [h] at hx
          exact htailns x (List.mem_of_mem_getLast? hx)
        · rw [h] at hx
          cases htl : tail with
          | nil => exact absurd htl hne
          | cons b t =>
              rw [htl, List.getLast?_cons_cons] at hx
              refine htailns x ?_
              rw [htl]
              exact List.mem_of_mem_getLast? hx
      have hchunkChain : List.Chain'
          (fun a b => a.isSeparator = false ∨ b.isSeparator = false)
          (ctxPrint c r sel).2 := by
        rcases hchunk with h | ⟨h, hne, _, _⟩
        · rw [h]
          exact chain'_of_nonsep tail htailns
        · rw [h]
          refine List.chain'_cons'.mpr ⟨?_, chain'_of_nonsep tail htailns⟩
          intro y hy
          exact Or.inr (htailns y (List.mem_of_mem_head? hy))
      refine ⟨?_, ?_, ?_⟩
      · rw [hout]
        refine List.chain'_append.mpr ⟨hchunkChain, ihChain, ?_⟩
        intro x hx _ _
        exact Or.inl (hchunkLast x hx)
      · rw [hout]
        cases hro : restOut with
        | nil =>
            simp only [hro, List.append_nil]
            exact hchunkLast
        | cons a t =>
            rw [List.getLast?_append_of_ne_nil _ (by simp [hro])]
            rw [← hro]
            exact ihLast
      · intro hlpz
        rw [hout]
        have hnosep : (ctxPrint c r sel).2 = tail := by
          rcases hchunk with h | ⟨_, _, hlpne, _⟩
          · exact h
          · exact absurd hlpz hlpne
        intro x hx
        rw [hnosep] at hx
        cases htl : tail with
        | nil =>
            rw [htl] at hx
            simp only [List.nil_append] at hx
            have hkeep : (ctxPrint c r sel).1.lastPrint = 0 := by
              rw [hemptail htl]
              exact hlpz
            exact ihHead hkeep x hx
        | cons a t =>
            rw [htl] at hx
            rw [List.head?_append_of_ne_nil _ (by simp)] at hx
            exact htailns x (htl ▸ List.mem_of_mem_head? hx)

/-- With both windows zero the context window is pure boolean filtering:
nothing it ever emits is a separator. -/
theorem processCtx_zero_windows (inputs : List (Rec × Bool)) (c : Ctx)
    (hns : ∀ rb ∈ inputs, rb.1.isSeparator = false)
    (hbuf : ∀ r ∈ c.lines, r.isSeparator = false)
    (hB : c.Before = 0) (hA : c.After = 0) :
    ∀ r ∈ (processCtx c inputs).2, r.isSeparator = false := by
  induction inputs generalizing c with
  | nil => simp [processCtx]
  | cons rb rest ih =>
      obtain ⟨r, sel⟩ := rb
      have hr : r.isSeparator = false := hns (r, sel) (by simp)
      have hns' : ∀ rb ∈ rest, rb.1.isSeparator = false :=
        fun rb h => hns rb (by simp [h])
      obtain ⟨hBeq, hAeq, hlines, _, tail, htail, _, hchunk⟩ := ctxPrint_cases c r sel
      have htailns : ∀ x ∈ tail, x.isSeparator = false := by
        intro x hx
        rcases htail x hx with h | h
        · exact hbuf x h
        · exact h ▸ hr
      have hbuf' : ∀ x ∈ (ctxPrint c r sel).1.lines, x.isSeparator = false := by
        intro x hx
        rcases hlines x hx with h | h
        · exact hbuf x h
        · exact h ▸ hr
      have hchunkEq : (ctxPrint c r sel).2 = tail := by
        rcases hchunk with h | ⟨_, _, _, hw⟩
        · exact h
        · rcases hw with hw | hw
          · exact absurd hA hw
          · exact absurd hB hw
      have hout : (processCtx c ((r, sel) :: rest)).2 =
          (ctxPrint c r sel).2 ++ (processCtx (ctxPrint c r sel).1 rest).2 := by
        simp [processCtx]
      intro x hx
      rw [hout, hchunkEq] at hx
      rcases List.mem_append.mp hx with h | h
      · exact htailns x h
      · exact ih (ctxPrint c r sel).1 hns' hbuf' (hBeq.trans hB) (hAeq.trans hA) x h

/-- C5: over any run of the context window from its initial state on
non-separator records, separator records never appear consecutively in
the emitted sequence, never precede the first emitted region (the output
never starts with one), never end the output, and never appear at all
when both the before-window and the after-window are zero. -/
theorem C5_separator_invariants (inputs : List (Rec × Bool)) (B A : Nat)
    (hns : ∀ rb ∈ inputs, rb.1.isSeparator = false) :
    List.Chain' (fun a b => a.isSeparator = false ∨ b.isSeparator = false)
      (processCtx { Before := B, After := A } inputs).2 ∧
    (∀ r ∈ (processCtx { Before := B, After := A } inputs).2.head?,
      r.isSeparator = false) ∧
    (∀ r ∈ (processCtx { Before := B, After := A } inputs).2.getLast?,
      r.isSeparator = false) ∧
    (B = 0 → A = 0 →
      ∀ r ∈ (processCtx { Before := B, After := A } inputs).2,
        r.isSeparator = false) := by
  obtain ⟨hChain, hLast, hHead⟩ :=
    processCtx_separator_discipline inputs { Before := B, After := A }
      hns (by simp) (fun _ => rfl)
  exact ⟨hChain, hHead rfl, hLast,
    fun hB hA => processCtx_zero_windows inputs { Before := B, After := A }
      hns (by simp) hB hA⟩

/-- Witness for C5: two records, the first selected, windows (1, 1). -/
theorem C5_separator_invariants_witness :
    (∀ rb ∈ [(c4r "a", true), (c4r "b", false)], rb.1.isSeparator = false) ∧
    (List.Chain' (fun a b => a.isSeparator = false ∨ b.isSeparator = false)
      (processCtx { Before := 1, After := 1 }
        [(c4r "a", true), (c4r "b", false)]).2 ∧
     (∀ r ∈ (processCtx { Before := 1, After := 1 }
        [(c4r "a", true), (c4r "b", false)]).2.head?,
       r.isSeparator = false) ∧
     (∀ r ∈ (processCtx { Before := 1, After := 1 }
        [(c4r "a", true), (c4r "b", false)]).2.getLast?,
       r.isSeparator = false) ∧
     ((1 : Nat) = 0 → (1 : Nat) = 0 →
       ∀ r ∈ (processCtx { Before := 1, After := 1 }
          [(c4r "a", true), (c4r "b", false)]).2,
         r.isSeparator = false)) :=
  ⟨by decide,
   C5_separator_invariants [(c4r "a", true), (c4r "b", false)] 1 1 (by decide)⟩

/-! ## C1, C2, C6, C10: the orchestrator (`ReadLog`) -/

/-- The per-line closure never touches `Lines` or `Errors` before its
epilogue, and touches `Filtered` at most once. -/
theorem processLineBody_counts (f : FilterScheme) (row : Raw) (st : LoopSt) :
    (processLineBody f row st).1.sum.Lines = st.sum.Lines ∧
    (processLineBody f row st).1.sum.Errors = st.sum.Errors ∧
    ((processLineBody f row st).1.sum.Filtered = st.sum.Filtered ∨
     (processLineBody f row st).1.sum.Filtered = st.sum.Filtered + 1) := by
  unfold processLineBody
  dsimp only
  rcases hR : ReadLine st.ins { raw := row } with ⟨ins1, l1, pe1⟩
  dsimp only
  by_cases h1 : pe1.isSome = true ∧ ins1.Strict = true
  · rw [if_pos h1]
    simp
  · rw [if_neg h1]
    rcases hF : f.Run l1 with e | ⟨filtered, l2⟩
    · simp
    · cases filtered <;> simp only [Bool.false_eq_true, false_and, if_false,
        true_and, if_true]
      · by_cases h2 : pe1.isSome = true
        · rw [if_pos h2]
          simp
        · rw [if_neg h2]
          rcases hCx : ctxPrint st.ctx l2 (!false) with ⟨ctx1, toEmit⟩
          try dsimp only
          rcases hE : emitAll ins1 st.outs "" toEmit with ⟨outs1, buf1⟩
          try dsimp only
          try split_ifs
          all_goals simp
      · rcases hCx : ctxPrint st.ctx l2 (!true) with ⟨ctx1, toEmit⟩
        try dsimp only
        rcases hE : emitAll ins1 st.outs "" toEmit with ⟨outs1, buf1⟩
        try dsimp only
        try split_ifs
        all_goals simp

/-- One full `processLine` call never changes `Lines` and changes each of
`Errors` and `Filtered` by at most one, however many records it emits. -/
theorem processLine_counts (f : FilterScheme) (row : Raw) (st : LoopSt) :
    (processLine f row st).1.sum.Lines = st.sum.Lines ∧
    st.sum.Errors ≤ (processLine f row st).1.sum.Errors ∧
    (processLine f row st).1.sum.Errors ≤ st.sum.Errors + 1 ∧
    st.sum.Filtered ≤ (processLine f row st).1.sum.Filtered ∧
    (processLine f row st).1.sum.Filtered ≤ st.sum.Filtered + 1 := by
  have hc := processLineBody_counts f row st
  unfold processLine
  rcases hB : processLineBody f row st with ⟨st1, buf, flags, ret⟩
  rw [hB] at hc
  dsimp only at hc ⊢
  obtain ⟨hL, hE, hF⟩ := hc
  split_ifs
  all_goals try dsimp only
  all_goals try simp [hL, hE]
  all_goals rcases hF with hF | hF
  all_goals omega

/-- The scan loop adds exactly one to `Lines` per row it reads. -/
theorem readLogLoop_lines (f : FilterScheme) (rows : List Raw) (st : LoopSt) :
    ((readLogLoop f st rows).2 = none →
      (readLogLoop f st rows).1.sum.Lines = st.sum.Lines + rows.length) ∧
    (readLogLoop f st rows).1.sum.Lines ≤ st.sum.Lines + rows.length := by
  induction rows generalizing st with
  | nil => simp [readLogLoop]
  | cons row rows ih =>
      have hc := processLine_counts f row
        { st with sum := { st.sum with Lines := st.sum.Lines + 1 } }
      unfold readLogLoop
      dsimp only
      rcases hP : processLine f row
          { st with sum := { st.sum with Lines := st.sum.Lines + 1 } } with ⟨st2, ret⟩
      rw [hP] at hc
      try dsimp only at hc
      obtain ⟨hL0, -, -, -, -⟩ := hc
      have hL : st2.sum.Lines = st.sum.Lines + 1 := by simpa using hL0
      cases ret with
      | none =>
          dsimp only
          obtain ⟨ih1, ih2⟩ := ih st2
          constructor
          · intro h
            rw [ih1 h, hL]
            simp only [List.length_cons]
            omega
          · rw [hL] at ih2
            simp only [List.length_cons]
            omega
      | some e =>
          dsimp only
          constructor
          · intro h
            simp at h
          · rw [hL]
            simp only [List.length_cons]
            omega

/-- A one-stage jq filter whose program always raises. -/
def jqErrFilter : FilterScheme := { JQ := some (fun _ => [JQOut.raised "goodbye"]) }

/-- A row like `goodLine` but carrying a `b` field. -/
def rowB : Raw := {
  text := "\x7b\"t\":2,\"l\":\"info\",\"m\":\"bye\",\"b\":1\x7d",
  json := some [("t", .vNum 2), ("l", .vStr "info"), ("m", .vStr "bye"), ("b", .vNum 1)] }

/-- A jq program that drops every record carrying a `b` field and passes
all others through unchanged. -/
def jqDropB : JQCode := fun r =>
  if (r.fields.get? "b").isSome then [] else [JQOut.val (.vObj r.fields)]

/-- The filter scheme with `jqDropB` as its jq stage. -/
def c10filter : FilterScheme := { JQ := some jqDropB }

/-- Output schema with an after-context window of one line. -/
def c10outs : OutputSchema := { Formatter := some testFmtr, AfterContext := 1 }

/-- `applyUpgradeKeys` on an empty field map is the identity. -/
theorem applyUpgradeKeys_nil (strict : Bool) (names : List String) (err : Option String) :
    applyUpgradeKeys strict names [] err = ([], err) := by
  induction names with
  | nil => rfl
  | cons n ns ih => exact ih

/-- Deleting keys from an empty field map leaves it empty. -/
theorem foldl_erase_nil (ks : List String) :
    ks.foldl (fun acc k => Fields.erase acc k) [] = [] := by
  induction ks with
  | nil => rfl
  | cons k ks ih => exact ih

/-- `guessSchema` matches no signature on a record with no fields. -/
theorem guessSchema_nil_fields (s : InputSchema) (l : Rec) (h : l.fields = []) :
    guessSchema s l = s := by
  unfold guessSchema
  rw [h]
  by_cases h1 : s.TimeKey ≠ "" ∨ s.LevelKey ≠ "" ∨ s.MessageKey ≠ ""
  · rw [if_pos h1]
  · rw [if_neg h1]
    by_cases h2 : s.NoTimeKey = true ∨ s.NoLevelKey = true ∨ s.NoMessageKey = true
    · rw [if_pos h2]
    · rw [if_neg h2]
      rfl

/-- The empty filter scheme passes every line through. -/
theorem filterRun_default (l : Rec) : FilterScheme.Run {} l = .ok (false, l) := rfl

set_option maxHeartbeats 1600000 in
/-- In lax mode a row the JSON decoder rejects parses to the raw-text
fallback record: schema unchanged, message set to the raw bytes, zero
time, unknown level, no fields, and a parse error. -/
theorem ReadLine_nonjson (s : InputSchema) (r : Raw)
    (hlax : s.Strict = false) (hnj : r.json = none) :
    ∃ err, ReadLine s { raw := r } = (s, { raw := r, msg := r.text }, some err) := by
  unfold ReadLine
  dsimp only
  rw [hnj, hlax]
  by_cases hb : (¬false = true ∧ ((r.text ≠ "" ∧ ¬startsWithBrace r.text = true) ∨ r.text = ""))
  · rw [if_pos hb]
    exact ⟨_, rfl⟩
  · rw [if_neg hb]
    dsimp only
    rw [if_pos (show ¬false = true by decide)]
    rw [guessSchema_nil_fields s { raw := r, msg := r.text } rfl]
    have hget : ∀ k, Fields.get? [] k = none := fun k => rfl
    simp only [hget]
    by_cases hnt : ¬s.NoTimeKey = true
    · rw [if_pos hnt]
      rcases hTF : s.TimeFormat with _ | tf
      all_goals try dsimp only
      all_goals try simp only [hget]
      all_goals by_cases hnm : ¬s.NoMessageKey = true
      all_goals first
        | rw [if_pos hnm]
        | rw [if_neg hnm]
      all_goals try dsimp only
      all_goals try simp only [hget]
      all_goals by_cases hnl : ¬s.NoLevelKey = true
      all_goals first
        | rw [if_pos hnl]
        | rw [if_neg hnl]
      all_goals try rcases hLF : s.LevelFormat with _ | lf
      all_goals try dsimp only
      all_goals try simp only [hget]
      all_goals rw [applyUpgradeKeys_nil, foldl_erase_nil]
      all_goals exact ⟨_, rfl⟩
    · rw [if_neg hnt]
      by_cases hnm : ¬s.NoMessageKey = true
      all_goals first
        | rw [if_pos hnm]
        | rw [if_neg hnm]
      all_goals try dsimp only
      all_goals try simp only [hget]
      all_goals by_cases hnl : ¬s.NoLevelKey = true
      all_goals first
        | rw [if_pos hnl]
        | rw [if_neg hnl]
      all_goals try rcases hLF : s.LevelFormat with _ | lf
      all_goals try dsimp only
      all_goals try simp only [hget]
      all_goals rw [applyUpgradeKeys_nil, foldl_erase_nil]
      all_goals exact ⟨_, rfl⟩

/-- C6: when `ReadLog` completes without a fatal error, `Summary.Lines`
equals the number of input rows; and the per-line closure leaves `Lines`
untouched (the loop adds exactly one per row) while `Errors` and
`Filtered` each change by at most one per line, regardless of how many
records the line produces downstream. -/
theorem C6_lines_equal_rows (rows : List Raw) (ins : InputSchema)
    (outs : OutputSchema) (f : FilterScheme)
    (hok : (ReadLog rows ins outs f).2 = none) :
    (ReadLog rows ins outs f).1.sum.Lines = rows.length ∧
    ∀ row st,
      (processLine f row st).1.sum.Lines = st.sum.Lines ∧
      st.sum.Errors ≤ (processLine f row st).1.sum.Errors ∧
      (processLine f row st).1.sum.Errors ≤ st.sum.Errors + 1 ∧
      st.sum.Filtered ≤ (processLine f row st).1.sum.Filtered ∧
      (processLine f row st).1.sum.Filtered ≤ st.sum.Filtered + 1 := by
  refine ⟨?_, fun row st => processLine_counts f row st⟩
  unfold ReadLog at hok ⊢
  simpa [ReadLogInit] using (readLogLoop_lines f rows _).1 hok

/-- Witness for C6 on a one-row input. -/
theorem C6_lines_equal_rows_witness :
    (ReadLog [rowGood] laxSchemaTLM testOuts {}).2 = none ∧
    ((ReadLog [rowGood] laxSchemaTLM testOuts {}).1.sum.Lines = 1 ∧
     ∀ row st,
      (processLine {} row st).1.sum.Lines = st.sum.Lines ∧
      st.sum.Errors ≤ (processLine {} row st).1.sum.Errors ∧
      (processLine {} row st).1.sum.Errors ≤ st.sum.Errors + 1 ∧
      st.sum.Filtered ≤ (processLine {} row st).1.sum.Filtered ∧
      (processLine {} row st).1.sum.Filtered ≤ st.sum.Filtered + 1) :=
  ⟨by decide, C6_lines_equal_rows [rowGood] laxSchemaTLM testOuts {} (by decide)⟩

set_option maxHeartbeats 1600000 in
/-- C10: a line the filter rejects is counted in `Summary.Filtered` in
every case (whatever the context window then does with it); and in a
concrete two-line run with an after-context of one line, the rejected
second line is counted in `Filtered` yet its rendering still appears in
the output. -/
theorem C10_filtered_counted_and_emitted (f : FilterScheme) (row : Raw)
    (st : LoopSt) (l' : Rec)
    (hns : ¬((ReadLine st.ins { raw := row }).2.2.isSome = true ∧
      (ReadLine st.ins { raw := row }).1.Strict = true))
    (hfilt : f.Run (ReadLine st.ins { raw := row }).2.1 = .ok (true, l')) :
    (processLine f row st).1.sum.Filtered = st.sum.Filtered + 1 ∧
    (ReadLog [rowGood, rowB] laxSchemaTLM c10outs c10filter).1.sum.Filtered = 1 ∧
    (ReadLog [rowGood, rowB] laxSchemaTLM c10outs c10filter).1.out =
      "\x7bLVL:I\x7d \x7bTS:1\x7d \x7bMSG:hi\x7d \x7bF:A:42\x7d\n" ++
      "\x7bLVL:I\x7d \x7bTS:2\x7d \x7bMSG:bye\x7d \x7bF:B:1\x7d\n" := by
  refine ⟨?_, by decide, by decide⟩
  revert hns hfilt
  unfold processLine processLineBody
  dsimp only
  rcases hR : ReadLine st.ins { raw := row } with ⟨ins1, l1, pe1⟩
  dsimp only
  intro hns hfilt
  rw [if_neg hns, hfilt]
  dsimp only
  by_cases hpe : pe1.isSome = true
  · simp [hpe]
    split_ifs <;> rfl
  · simp [hpe]

/-- Witness for C10: the second test row is rejected by the jq stage. -/
theorem C10_filtered_counted_and_emitted_witness :
    (¬((ReadLine laxSchemaTLM { raw := rowB }).2.2.isSome = true ∧
       (ReadLine laxSchemaTLM { raw := rowB }).1.Strict = true)) ∧
    c10filter.Run (ReadLine laxSchemaTLM { raw := rowB }).2.1 =
      .ok (true, (ReadLine laxSchemaTLM { raw := rowB }).2.1) ∧
    ((processLine c10filter rowB { ins := laxSchemaTLM }).1.sum.Filtered = 1 ∧
     (ReadLog [rowGood, rowB] laxSchemaTLM c10outs c10filter).1.sum.Filtered = 1 ∧
     (ReadLog [rowGood, rowB] laxSchemaTLM c10outs c10filter).1.out =
       "\x7bLVL:I\x7d \x7bTS:1\x7d \x7bMSG:hi\x7d \x7bF:A:42\x7d\n" ++
       "\x7bLVL:I\x7d \x7bTS:2\x7d \x7bMSG:bye\x7d \x7bF:B:1\x7d\n") :=
  ⟨by decide, rfl,
   C10_filtered_counted_and_emitted c10filter rowB { ins := laxSchemaTLM }
     (ReadLine laxSchemaTLM { raw := rowB }).2.1 (by decide) rfl⟩

/-- C1 is refuted on this run: a filter error on line 1 of 2 terminates
the whole run (`ReadLog` returns the error and the second line is never
read), instead of continuing with the next line. -/
theorem C1_counterexample :
    (ReadLog [rowGood, rowGood] laxSchemaTLM testOuts jqErrFilter).2 =
      some "input line 1: filter: jq: error: goodbye" ∧
    (ReadLog [rowGood, rowGood] laxSchemaTLM testOuts jqErrFilter).1.sum.Lines = 1 := by
  constructor
  · decide
  · decide

set_option maxHeartbeats 1600000 in
/-- The per-line closure on a filter error: the (empty) per-line buffer
is flushed, the raw line is written verbatim, the error is counted, and
the error is returned as non-recoverable. -/
theorem processLine_filter_error (f : FilterScheme) (row : Raw) (st : LoopSt)
    (e : String)
    (hns : ¬((ReadLine st.ins { raw := row }).2.2.isSome = true ∧
      (ReadLine st.ins { raw := row }).1.Strict = true))
    (hfilt : f.Run (ReadLine st.ins { raw := row }).2.1 = .error e) :
    (processLine f row st).2 = some ("filter: " ++ e) ∧
    (processLine f row st).1.sum.Lines = st.sum.Lines ∧
    (processLine f row st).1.sum.Errors = st.sum.Errors + 1 ∧
    (processLine f row st).1.sum.Filtered = st.sum.Filtered ∧
    (processLine f row st).1.out = st.out ++ row.text ++ "\n" := by
  revert hns hfilt
  unfold processLine processLineBody
  dsimp only
  rcases hR : ReadLine st.ins { raw := row } with ⟨ins1, l1, pe1⟩
  dsimp only
  intro hns hfilt
  rw [if_neg hns, hfilt]
  simp

/-- C1 (amended): when the filter stage errors on a line (and the line
did not already die on a strict-mode parse error), `ReadLog` flushes the
line's buffered output, writes the raw bytes verbatim, counts the error
in `Summary.Errors`, and then *terminates the run*, returning the error
annotated with the line number — the remaining lines are never read. -/
theorem C1_filter_error_terminates (f : FilterScheme) (row : Raw)
    (rows : List Raw) (st : LoopSt) (e : String)
    (hns : ¬((ReadLine st.ins { raw := row }).2.2.isSome = true ∧
      (ReadLine st.ins { raw := row }).1.Strict = true))
    (hfilt : f.Run (ReadLine st.ins { raw := row }).2.1 = .error e) :
    (readLogLoop f st (row :: rows)).2 =
      some ("input line " ++ toString (st.sum.Lines + 1) ++ ": " ++ ("filter: " ++ e)) ∧
    (readLogLoop f st (row :: rows)).1.sum.Lines = st.sum.Lines + 1 ∧
    (readLogLoop f st (row :: rows)).1.sum.Errors = st.sum.Errors + 1 ∧
    (readLogLoop f st (row :: rows)).1.out = st.out ++ row.text ++ "\n" := by
  have h := processLine_filter_error f row
    { st with sum := { st.sum with Lines := st.sum.Lines + 1 } } e hns hfilt
  unfold readLogLoop
  dsimp only
  rcases hP : processLine f row
      { st with sum := { st.sum with Lines := st.sum.Lines + 1 } } with ⟨st2, ret⟩
  rw [hP] at h
  obtain ⟨hret, hL, hE, hF, hO⟩ := h
  dsimp only at hret hL hE hF hO
  subst hret
  dsimp only
  have hL2 : st2.sum.Lines = st.sum.Lines + 1 := by simpa using hL
  have hE2 : st2.sum.Errors = st.sum.Errors + 1 := by simpa using hE
  have hO2 : st2.out = st.out ++ row.text ++ "\n" := by simpa using hO
  rw [hL2, hE2, hO2]
  exact ⟨rfl, rfl, rfl, rfl⟩

/-- Witness for C1 (amended): the raising jq program on the test line. -/
theorem C1_filter_error_terminates_witness :
    (¬((ReadLine laxSchemaTLM { raw := rowGood }).2.2.isSome = true ∧
       (ReadLine laxSchemaTLM { raw := rowGood }).1.Strict = true)) ∧
    jqErrFilter.Run (ReadLine laxSchemaTLM { raw := rowGood }).2.1 =
      .error "jq: error: goodbye" ∧
    ((readLogLoop jqErrFilter { ins := laxSchemaTLM } [rowGood, rowGood]).2 =
      some "input line 1: filter: jq: error: goodbye" ∧
     (readLogLoop jqErrFilter { ins := laxSchemaTLM } [rowGood, rowGood]).1.sum.Lines = 1 ∧
     (readLogLoop jqErrFilter { ins := laxSchemaTLM } [rowGood, rowGood]).1.sum.Errors = 1 ∧
     (readLogLoop jqErrFilter { ins := laxSchemaTLM } [rowGood, rowGood]).1.out =
       rowGood.text ++ "\n") :=
  ⟨by decide, rfl,
   C1_filter_error_terminates jqErrFilter rowGood [rowGood] { ins := laxSchemaTLM }
     "jq: error: goodbye" (by decide) rfl⟩

/-- C2 is refuted on the error count: in lax mode the non-JSON first line
still increments `Summary.Errors` (the claim says neither line does). -/
theorem C2_counterexample :
    (ReadLog [rowNotJson, rowGood] laxSchemaTLM testOuts {}).1.sum.Errors = 1 := by
  decide

set_option maxHeartbeats 3200000 in
/-- C2 (amended): a non-JSON line followed by a valid JSON line in lax
mode reads both lines, produces exactly two output records — first the
raw-text fallback `\x7b raw := r1, msg := r1.text \x7d` (zero time, unknown
level, no fields), then the fully decoded record — and counts the first
line in `Summary.Errors` even in lax mode; laxness only suppresses the
diagnostics and the raw-line echo, not the error count. -/
theorem C2_lax_two_lines (r1 r2 : Raw) (ins : InputSchema)
    (hlax : ins.Strict = false) (hnj : r1.json = none)
    (h2 : (ReadLine ins { raw := r2 }).2.2 = none) :
    (ReadLog [r1, r2] ins testOuts {}).2 = none ∧
    (ReadLog [r1, r2] ins testOuts {}).1.sum.Lines = 2 ∧
    (ReadLog [r1, r2] ins testOuts {}).1.sum.Errors = 1 ∧
    (ReadLog [r1, r2] ins testOuts {}).1.sum.Filtered = 0 ∧
    (ReadLog [r1, r2] ins testOuts {}).1.diags = [] ∧
    (ReadLog [r1, r2] ins testOuts {}).1.out =
      (emitAll ins (ReadLogInitOuts testOuts) "" [{ raw := r1, msg := r1.text }]).2 ++
      (emitAll (ReadLine ins { raw := r2 }).1
        (emitAll ins (ReadLogInitOuts testOuts) "" [{ raw := r1, msg := r1.text }]).1 ""
        [(ReadLine ins { raw := r2 }).2.1]).2 := by
  obtain ⟨err1, hR1⟩ := ReadLine_nonjson ins r1 hlax hnj
  unfold ReadLog ReadLogInit
  unfold readLogLoop
  dsimp only
  unfold processLine processLineBody
  dsimp only
  rw [hR1]
  dsimp only
  rw [hlax]
  rw [if_neg (show ¬((some err1).isSome = true ∧ false = true) by simp)]
  have hX : FilterScheme.Run
      { JQ := none, MatchRegex := none, NoMatchRegex := none, Scope := RegexpScopeMessage }
      { time := none, msg := r1.text, lvl := Level.unknown, raw := r1, highlight := false,
        fields := [], isSeparator := false } =
      Except.ok (false,
        { time := none, msg := r1.text, lvl := Level.unknown, raw := r1, highlight := false,
          fields := [], isSeparator := false }) := rfl
  rw [hX]
  dsimp only
  simp only [Bool.false_eq_true, false_and, if_false]
  simp only [show testOuts.BeforeContext = 0 from rfl, show testOuts.AfterContext = 0 from rfl]
  rw [show ctxPrint
      { Before := 0, After := 0, lines := [], printAfter := 0, line := 0, lastPrint := 0 }
      { time := none, msg := r1.text, lvl := Level.unknown, raw := r1, highlight := false,
        fields := [], isSeparator := false } (!false) =
    ({ Before := 0, After := 0, lines := [], printAfter := 0, line := 1, lastPrint := 1 },
     [{ time := none, msg := r1.text, lvl := Level.unknown, raw := r1, highlight := false,
        fields := [], isSeparator := false }]) from rfl]
  rw [if_pos (show (some err1).isSome = true from rfl)]
  simp only [Bool.false_eq_true, if_false, if_true, Nat.zero_add]
  rw [hlax]
  simp only [Bool.false_eq_true, if_false]
  unfold readLogLoop
  dsimp only
  unfold processLine processLineBody
  dsimp only
  rcases hR2 : ReadLine ins { raw := r2 } with ⟨ins2, l2, pe2⟩
  rw [hR2] at h2
  dsimp only at h2
  subst h2
  dsimp only
  simp only [Option.isSome_none, Bool.false_eq_true, false_and, if_false]
  rw [filterRun_default l2]
  dsimp only
  simp only [Bool.false_eq_true, false_and, if_false, if_true]
  rw [show ctxPrint
      { Before := 0, After := 0, lines := [], printAfter := 0, line := 1, lastPrint := 1 }
      l2 (!false) =
    ({ Before := 0, After := 0, lines := [], printAfter := 0, line := 2, lastPrint := 2 },
     [l2]) from rfl]
  unfold readLogLoop
  exact ⟨rfl, rfl, rfl, rfl, rfl, rfl⟩

/-- Witness for C2 (amended) on the repository's own test rows. -/
theorem C2_lax_two_lines_witness :
    laxSchemaTLM.Strict = false ∧
    rowNotJson.json = none ∧
    (ReadLine laxSchemaTLM { raw := rowGood }).2.2 = none ∧
    ((ReadLog [rowNotJson, rowGood] laxSchemaTLM testOuts {}).2 = none ∧
     (ReadLog [rowNotJson, rowGood] laxSchemaTLM testOuts {}).1.sum.Lines = 2 ∧
     (ReadLog [rowNotJson, rowGood] laxSchemaTLM testOuts {}).1.sum.Errors = 1 ∧
     (ReadLog [rowNotJson, rowGood] laxSchemaTLM testOuts {}).1.sum.Filtered = 0 ∧
     (ReadLog [rowNotJson, rowGood] laxSchemaTLM testOuts {}).1.diags = [] ∧
     (ReadLog [rowNotJson, rowGood] laxSchemaTLM testOuts {}).1.out =
       (emitAll laxSchemaTLM (ReadLogInitOuts testOuts) ""
         [{ raw := rowNotJson, msg := rowNotJson.text }]).2 ++
       (emitAll (ReadLine laxSchemaTLM { raw := rowGood }).1
         (emitAll laxSchemaTLM (ReadLogInitOuts testOuts) ""
           [{ raw := rowNotJson, msg := rowNotJson.text }]).1 ""
         [(ReadLine laxSchemaTLM { raw := rowGood }).2.1]).2) :=
  ⟨rfl, rfl, by decide,
   C2_lax_two_lines rowNotJson rowGood laxSchemaTLM rfl rfl (by decide)⟩

end JsonLogs
